import Mathlib

/-!
# DMA / cache-maintenance hand-off protocol

Shallow embedding of the two programs of the repository

* `bare-metal/dma_multi_core.c` (one `main` run by every hart, role chosen by `mhartid`),
* `linux/dma_multi_core.c` (`main` + one DMA thread + `NUM_HARTS` worker threads).

A program state holds the two byte buffers, the completion flag `dma_done`, and for every
execution context a program counter and the list of externally visible events the context
has produced so far (console output, buffer accesses, cache-maintenance instructions, fences
and accesses to the flag).  One step of one context executes one statement or one loop
iteration of the C source; a run is a list of context ids (the interleaving).

Conventions of the embedding:

* the buffers and the flag are the C objects `src_buf`, `dst_buf`, `dma_done`; steps of
  different contexts interleave and every load returns the last value stored
  (interleaving semantics);
* the inline assembly (`cbo.clean`, `cbo.inval`, `fence rw, rw`) changes no C object; it is
  recorded in the trace of the context, and its effect on a cache is given separately
  (`effect`), from the comments next to the instructions;
* `uintptr_t` arithmetic is taken modulo `2 ^ w`, `(uint8_t)i` is `i % 256`;
* console output is kept per context (the text that context printed, in order);
* the library calls of the hosted program that can fail are parameters of a run.
-/

namespace DmaSim

/-! ## Constants of the sources -/

/-- The constant `BUFFER_SIZE` (both sources). -/
def BUFFER_SIZE : Nat := 1024

/-- The constant `CACHE_LINE` (both sources). -/
def CACHE_LINE : Nat := 64

/-- The constant `NUM_HARTS` (both sources). -/
def NUM_HARTS : Nat := 4

/-- Bound of the latency loop `for (volatile int i = 0; i < 1000000; i++);`. -/
def DELAY_ITERS : Nat := 1000000

/-! ## Events -/

/-- How the flag `dma_done` is accessed: a plain access to the `volatile int`
(hosted variant) or through `__atomic_store_n(.., __ATOMIC_RELEASE)` /
`__atomic_load_n(.., __ATOMIC_ACQUIRE)` (bare-metal variant). -/
inductive MemOrder where
  | plain
  | acquire
  | release
  deriving DecidableEq, Repr

/-- The two buffers `src_buf` and `dst_buf`. -/
inductive Buf where
  | src
  | dst
  deriving DecidableEq, Repr

/-- Externally visible events of one execution context. -/
inductive Ev where
  /-- Text written to the console (`console_puts`, `uart_putchar`, `printf`). -/
  | out (s : String)
  /-- Store of byte `v` to `buf[i]`. -/
  | store (b : Buf) (i v : Nat)
  /-- Load of `buf[i]`, which returned `v`. -/
  | load (b : Buf) (i v : Nat)
  /-- The instruction `cbo.clean (p)`. -/
  | cboClean (p : Nat)
  /-- The instruction `cbo.inval (p)`. -/
  | cboInval (p : Nat)
  /-- The instruction `fence rw, rw`. -/
  | fence
  /-- Store of `v` to `dma_done`. -/
  | storeFlag (v : Nat) (o : MemOrder)
  /-- Load of `dma_done`, which returned `v`. -/
  | loadFlag (v : Nat) (o : MemOrder)
  /-- A call `perror(s)` (text on the error stream). -/
  | perror (s : String)
  deriving DecidableEq, Repr

/-! ## Cache maintenance loops (bare-metal variant) -/

/-- The start of the loop, `(uintptr_t)addr & ~(CACHE_LINE - 1)`, for a `uintptr_t` of `w`
bits: `~(CACHE_LINE - 1)` is the `int` value `-64`, which converts to `2^w - 64`. -/
def lineBase (w addr : Nat) : Nat := addr &&& (2 ^ w - CACHE_LINE)

/-- The loop bound, `(uintptr_t)addr + size`, for a `uintptr_t` of `w` bits. -/
def rangeEnd (w addr size : Nat) : Nat := (addr + size) % 2 ^ w

/-- The increment of the loop, `p += CACHE_LINE`, for a `uintptr_t` of `w` bits. -/
def nextLine (w p : Nat) : Nat := (p + CACHE_LINE) % 2 ^ w

/-- The loop `for (; p < end; p += CACHE_LINE) { blk(p) }  fence rw, rw` shared by
`cache_clean` and `cache_invalidate`; `blk p` is the instruction of the loop body.
The result is the list of instructions executed, `none` when `fuel` iterations do not
reach the end of the loop. -/
def cmoLoop (w : Nat) (blk : Nat → Ev) (e : Nat) : Nat → Nat → Option (List Ev)
  | 0, _ => none
  | fuel + 1, p =>
    if p < e then (cmoLoop w blk e fuel (nextLine w p)).map (fun evs => blk p :: evs)
    else some [Ev.fence]

/-- Body of the loop of `cache_clean`: `cbo.clean (p)` when the build defines
`__riscv_zicbom`, else the fallback `fence rw, rw`. -/
def cleanInstr (zicbom : Bool) (p : Nat) : Ev := if zicbom then Ev.cboClean p else Ev.fence

/-- Body of the loop of `cache_invalidate`: `cbo.inval (p)` when the build defines
`__riscv_zicbom`, else the fallback `fence rw, rw`. -/
def invalInstr (zicbom : Bool) (p : Nat) : Ev := if zicbom then Ev.cboInval p else Ev.fence

/-- Bare-metal `cache_clean(addr, size)`: the instructions it executes. -/
def cache_clean (w : Nat) (zicbom : Bool) (fuel addr size : Nat) : Option (List Ev) :=
  cmoLoop w (cleanInstr zicbom) (rangeEnd w addr size) fuel (lineBase w addr)

/-- Bare-metal `cache_invalidate(addr, size)`: the instructions it executes. -/
def cache_invalidate (w : Nat) (zicbom : Bool) (fuel addr size : Nat) : Option (List Ev) :=
  cmoLoop w (invalInstr zicbom) (rangeEnd w addr size) fuel (lineBase w addr)

/-! ## Configuration and console text -/

/-- Build-time and link-time parameters of a program image. -/
structure Config where
  /-- Buffer size in bytes (`BUFFER_SIZE` in the sources). -/
  S : Nat
  /-- Number of bits of `uintptr_t`. -/
  w : Nat
  /-- Address of `src_buf`. -/
  srcAddr : Nat
  /-- Address of `dst_buf`. -/
  dstAddr : Nat
  /-- Whether the build defines `__riscv_zicbom`. -/
  zicbom : Bool

/-- The string `hexdigits` of the bare-metal source. -/
def hexdigits : List Char := "0123456789ABCDEF".toList

/-- The three characters the bare-metal dump loop prints for the byte `b`:
`buf[0] = (space)`, `buf[1] = hexdigits[(b >> 4) & 0xF]`, `buf[2] = hexdigits[b & 0xF]`
(`buf[3]` is the terminator). -/
def dumpByte (b : Nat) : List Char :=
  [' ', hexdigits.getD ((b >>> 4) &&& 0xF) '?', hexdigits.getD (b &&& 0xF) '?']

/-- The console text of a list of events. -/
def consoleOf : List Ev → List Char
  | [] => []
  | Ev.out cs :: evs => cs.data ++ consoleOf evs
  | _ :: evs => consoleOf evs

namespace BareMetal

/-! ## Bare-metal variant: `main` of `bare-metal/dma_multi_core.c`, run by every hart -/

/-- Program points of `main`.  The producer path (`hart == 0`) is
`start, pMsg, fill, clean, delay, copy, inval, publish, pDone, wfi`; the observer path is
`start, oMsg, wait, oInval, oHdr, dump, nl, wfi`. -/
inductive Pc where
  /-- Entry: `read_hartid()` and the banner `[hart N] starting`. -/
  | start
  /-- Producer banner `[hart N] initialize source and start DMA`. -/
  | pMsg
  /-- The fill loop `src_buf[i] = (uint8_t)i` at index `i`. -/
  | fill (i : Nat)
  /-- The loop of `cache_clean(src_buf, BUFFER_SIZE)` at line address `p`. -/
  | clean (p : Nat)
  /-- The latency loop at counter `k`. -/
  | delay (k : Nat)
  /-- The copy `memcpy(dst_buf, src_buf, BUFFER_SIZE)` at byte `i`. -/
  | copy (i : Nat)
  /-- The loop of the producer's `cache_invalidate(dst_buf, BUFFER_SIZE)`. -/
  | inval (p : Nat)
  /-- The store `__atomic_store_n(&dma_done, 1, __ATOMIC_RELEASE)`. -/
  | publish
  /-- Producer banner `[hart N] DMA done`. -/
  | pDone
  /-- Observer banner `[hart N] wait for DMA`. -/
  | oMsg
  /-- The wait loop `while (!__atomic_load_n(&dma_done, __ATOMIC_ACQUIRE))`. -/
  | wait
  /-- The loop of the observer's `cache_invalidate(dst_buf, BUFFER_SIZE)`. -/
  | oInval (p : Nat)
  /-- Observer header `[hart N] dst_buf[0..15]:`. -/
  | oHdr
  /-- The dump loop at index `i`. -/
  | dump (i : Nat)
  /-- The final `console_puts` of a newline. -/
  | nl
  /-- The final loop `while (1) wfi`. -/
  | wfi
  deriving DecidableEq, Repr

/-- One hart: where it is in `main` and what it has done so far. -/
structure Hart where
  pc : Pc
  trace : List Ev

/-- The state of the machine: the static objects of the program and every hart. -/
structure State where
  src : Nat → Nat
  dst : Nat → Nat
  dma_done : Nat
  harts : Nat → Hart

/-- Reset state: the static buffers and `dma_done` are zero, every hart enters `main`. -/
def init : State :=
  { src := fun _ => 0, dst := fun _ => 0, dma_done := 0, harts := fun _ => ⟨Pc.start, []⟩ }

/-- The text `[hart N`, where the digit is printed by `uart_putchar('0' + hart)`. -/
def hartTag (h : Nat) : String := "[hart " ++ String.mk [Char.ofNat ((48 + h) % 256)]

/-- Hart `h` moves to `pc` and appends `evs` to its trace. -/
def goto (s : State) (h : Nat) (pc : Pc) (evs : List Ev) : State :=
  { s with harts := Function.update s.harts h ⟨pc, (s.harts h).trace ++ evs⟩ }

/-- One step of hart `h`: the statement (or loop iteration) at its program point. -/
def step (c : Config) (h : Nat) (s : State) : State :=
  match (s.harts h).pc with
  | Pc.start =>
    goto s h (if h = 0 then Pc.pMsg else Pc.oMsg) [Ev.out (hartTag h ++ "] starting\n")]
  | Pc.pMsg =>
    goto s h (Pc.fill 0) [Ev.out (hartTag h ++ "] initialize source and start DMA\n")]
  | Pc.fill i =>
    if i < c.S then
      { goto s h (Pc.fill (i + 1)) [Ev.store Buf.src i (i % 256)] with
        src := Function.update s.src i (i % 256) }
    else goto s h (Pc.clean (lineBase c.w c.srcAddr)) []
  | Pc.clean p =>
    if p < rangeEnd c.w c.srcAddr c.S then
      goto s h (Pc.clean (nextLine c.w p)) [cleanInstr c.zicbom p]
    else goto s h (Pc.delay 0) [Ev.fence]
  | Pc.delay k =>
    if k < DELAY_ITERS then goto s h (Pc.delay (k + 1)) [] else goto s h (Pc.copy 0) []
  | Pc.copy i =>
    if i < c.S then
      { goto s h (Pc.copy (i + 1)) [Ev.load Buf.src i (s.src i), Ev.store Buf.dst i (s.src i)]
          with dst := Function.update s.dst i (s.src i) }
    else goto s h (Pc.inval (lineBase c.w c.dstAddr)) []
  | Pc.inval p =>
    if p < rangeEnd c.w c.dstAddr c.S then
      goto s h (Pc.inval (nextLine c.w p)) [invalInstr c.zicbom p]
    else goto s h Pc.publish [Ev.fence]
  | Pc.publish =>
    { goto s h Pc.pDone [Ev.storeFlag 1 MemOrder.release] with dma_done := 1 }
  | Pc.pDone => goto s h Pc.wfi [Ev.out (hartTag h ++ "] DMA done\n")]
  | Pc.oMsg => goto s h Pc.wait [Ev.out (hartTag h ++ "] wait for DMA \n")]
  | Pc.wait =>
    if s.dma_done = 0 then goto s h Pc.wait [Ev.loadFlag s.dma_done MemOrder.acquire]
    else goto s h (Pc.oInval (lineBase c.w c.dstAddr)) [Ev.loadFlag s.dma_done MemOrder.acquire]
  | Pc.oInval p =>
    if p < rangeEnd c.w c.dstAddr c.S then
      goto s h (Pc.oInval (nextLine c.w p)) [invalInstr c.zicbom p]
    else goto s h Pc.oHdr [Ev.fence]
  | Pc.oHdr => goto s h (Pc.dump 0) [Ev.out (hartTag h ++ "] dst_buf[0..15]:\n")]
  | Pc.dump i =>
    if i < 16 then
      goto s h (Pc.dump (i + 1))
        [Ev.load Buf.dst i (s.dst i), Ev.load Buf.dst i (s.dst i),
          Ev.out (String.mk (dumpByte (s.dst i)))]
    else goto s h Pc.nl []
  | Pc.nl => goto s h Pc.wfi [Ev.out "\n"]
  | Pc.wfi => s

/-- The state after the interleaving `sched` (a list of hart ids), started from `s`. -/
def runFrom (c : Config) (s : State) (sched : List Nat) : State :=
  sched.foldl (fun st h => step c h st) s

/-- The state after the interleaving `sched`, started from reset. -/
def run (c : Config) (sched : List Nat) : State := runFrom c init sched

/-- Number of bytes of `src_buf` the producer has filled when it is at `pc`. -/
def filled (c : Config) : Pc → Nat
  | Pc.start => 0
  | Pc.pMsg => 0
  | Pc.fill i => i
  | _ => c.S

/-- Number of bytes of `dst_buf` the producer has copied when it is at `pc`. -/
def copied (c : Config) : Pc → Nat
  | Pc.copy i => i
  | Pc.inval _ => c.S
  | Pc.publish => c.S
  | Pc.pDone => c.S
  | Pc.wfi => c.S
  | _ => 0

/-- The producer is past its store to `dma_done`. -/
def published : Pc → Bool
  | Pc.pDone => true
  | Pc.wfi => true
  | _ => false

/-- The program point is on the producer path. -/
def onProducerPath : Pc → Bool
  | Pc.oMsg => false
  | Pc.wait => false
  | Pc.oInval _ => false
  | Pc.oHdr => false
  | Pc.dump _ => false
  | Pc.nl => false
  | _ => true

/-- The program point is on the observer path. -/
def onObserverPath : Pc → Bool
  | Pc.start => true
  | Pc.oMsg => true
  | Pc.wait => true
  | Pc.oInval _ => true
  | Pc.oHdr => true
  | Pc.dump _ => true
  | Pc.nl => true
  | Pc.wfi => true
  | _ => false

/-- An observer at this program point has left its wait loop. -/
def pastWait : Pc → Bool
  | Pc.oInval _ => true
  | Pc.oHdr => true
  | Pc.dump _ => true
  | Pc.nl => true
  | Pc.wfi => true
  | _ => false

/-- An observer at this program point has finished its own `cache_invalidate`. -/
def pastInvalidate : Pc → Bool
  | Pc.oHdr => true
  | Pc.dump _ => true
  | Pc.nl => true
  | Pc.wfi => true
  | _ => false

/-- The invariant of the protocol on the shared objects. -/
structure Inv (c : Config) (s : State) : Prop where
  prod : onProducerPath (s.harts 0).pc = true
  obs : ∀ h, h ≠ 0 → onObserverPath (s.harts h).pc = true
  src_ok : ∀ j, j < filled c (s.harts 0).pc → j < c.S → s.src j = j % 256
  dst_ok : ∀ j, j < copied c (s.harts 0).pc → j < c.S → s.dst j = j % 256
  flag : s.dma_done = if published (s.harts 0).pc then 1 else 0
  woken : ∀ h, h ≠ 0 → pastWait (s.harts h).pc = true → s.dma_done = 1

end BareMetal

namespace Linux

/-! ## Hosted variant: `linux/dma_multi_core.c` -/

/-- The parameters of a run of the hosted program: the buffer size, the indeterminate
contents of the memory returned by `posix_memalign`, and which of the library calls that
can fail succeed. -/
structure Config where
  /-- Buffer size in bytes (`BUFFER_SIZE` in the source). -/
  S : Nat
  /-- Contents of the block allocated for `src_buf`. -/
  src0 : Nat → Nat
  /-- Contents of the block allocated for `dst_buf`. -/
  dst0 : Nat → Nat
  /-- Both `posix_memalign` calls return 0. -/
  allocOk : Bool
  /-- The call `pthread_create(&dma_th, ..)` returns 0. -/
  dmaCreateOk : Bool
  /-- The call `pthread_create(&cores[i], ..)` returns 0. -/
  workerCreateOk : Nat → Bool

/-- The execution contexts: `main`, the thread `dma_th` and the threads `cores[i]`. -/
inductive Tid where
  | main
  | dma
  | worker (i : Nat)
  deriving DecidableEq, Repr

/-- Program points of `main`. -/
inductive MainPc where
  /-- The two `posix_memalign` calls. -/
  | alloc
  /-- The message `Allocated src and dst buffers`. -/
  | allocMsg
  /-- The fill loop `src_buf[i] = (uint8_t)i` at index `i`. -/
  | fill (i : Nat)
  /-- The message `Initialized src buffer`. -/
  | fillMsg
  /-- The call `cache_clean(src_buf, BUFFER_SIZE)`. -/
  | clean
  /-- The message `Cleaned cache lines for src buffer`. -/
  | cleanMsg
  /-- The call `pthread_create(&dma_th, NULL, dma_transfer, NULL)`. -/
  | spawnDma
  /-- The message `Launched DMA simulator`. -/
  | spawnMsg
  /-- The loop `for (i = 0; i < NUM_HARTS; i++)` creating `cores[i]` with argument `i`. -/
  | spawn (i : Nat)
  /-- The message `Waiting for threads to finish`. -/
  | waitMsg
  /-- The call `pthread_join(dma_th, NULL)`. -/
  | joinDma
  /-- The loop of `pthread_join(cores[i], NULL)`. -/
  | join (i : Nat)
  /-- The call `free(src_buf)`. -/
  | freeSrc
  /-- The call `free(dst_buf)`. -/
  | freeDst
  /-- The message `All threads done; ...`. -/
  | doneMsg
  /-- The final loop `while (1) sleep(1)`. -/
  | spin
  /-- After `return EXIT_FAILURE`. -/
  | failed
  deriving DecidableEq, Repr

/-- Program points of `dma_transfer`. -/
inductive DmaPc where
  /-- The thread has not been created. -/
  | idle
  /-- The call `sleep(1)`. -/
  | sleep
  /-- The copy `memcpy(dst_buf, src_buf, BUFFER_SIZE)` at byte `i`. -/
  | copy (i : Nat)
  /-- The call `cache_invalidate(dst_buf, BUFFER_SIZE)`. -/
  | inval
  /-- The store `dma_done = 1`. -/
  | publish
  /-- After `return NULL`. -/
  | done
  deriving DecidableEq, Repr

/-- Program points of `hart_worker`. -/
inductive WorkerPc where
  /-- The thread has not been created. -/
  | idle
  /-- Entry: `hart_id = *(int *)arg; free(arg)`. -/
  | entry
  /-- The wait loop `while (!dma_done)`. -/
  | wait
  /-- The call `cache_invalidate(dst_buf, BUFFER_SIZE)`. -/
  | inval
  /-- The header `printf` with the hart id. -/
  | hdr
  /-- The dump loop at index `i`. -/
  | dump (i : Nat)
  /-- The final `printf` of two newlines. -/
  | nl
  /-- After `return NULL`. -/
  | done
  deriving DecidableEq, Repr

/-- One thread: where it is and what it has done so far. -/
structure Thread (α : Type) where
  pc : α
  trace : List Ev

/-- The state of the process. -/
structure State where
  src : Nat → Nat
  dst : Nat → Nat
  dma_done : Nat
  /-- The block of `src_buf` has not been freed. -/
  srcLive : Bool
  /-- The block of `dst_buf` has not been freed. -/
  dstLive : Bool
  main : Thread MainPc
  dma : Thread DmaPc
  workers : Nat → Thread WorkerPc

/-- Process start: only `main` runs; `dma_done` is 0. -/
def init (c : Config) : State :=
  { src := c.src0, dst := c.dst0, dma_done := 0, srcLive := true, dstLive := true,
    main := ⟨MainPc.alloc, []⟩, dma := ⟨DmaPc.idle, []⟩,
    workers := fun _ => ⟨WorkerPc.idle, []⟩ }

/-- The digits printed by the C library for the conversion `%02X` of the value `n`:
upper-case hexadecimal, padded with zeros to two characters. -/
def printf_02X (n : Nat) : List Char :=
  let ds := (Nat.toDigits 16 n).map Char.toUpper
  List.replicate (2 - ds.length) '0' ++ ds

/-- The text of `printf(" %02X", b)`. -/
def dumpByte (b : Nat) : List Char := ' ' :: printf_02X b

/-- Thread `main` moves to `pc` and appends `evs` to its trace. -/
def mainGoto (s : State) (pc : MainPc) (evs : List Ev) : State :=
  { s with main := ⟨pc, s.main.trace ++ evs⟩ }

/-- Thread `dma_th` moves to `pc` and appends `evs` to its trace. -/
def dmaGoto (s : State) (pc : DmaPc) (evs : List Ev) : State :=
  { s with dma := ⟨pc, s.dma.trace ++ evs⟩ }

/-- Thread `cores[i]` moves to `pc` and appends `evs` to its trace. -/
def workerGoto (s : State) (i : Nat) (pc : WorkerPc) (evs : List Ev) : State :=
  { s with workers := Function.update s.workers i ⟨pc, (s.workers i).trace ++ evs⟩ }

/-- One step of `main`. -/
def stepMain (c : Config) (s : State) : State :=
  match s.main.pc with
  | MainPc.alloc =>
    if c.allocOk then mainGoto s MainPc.allocMsg []
    else mainGoto s MainPc.failed [Ev.perror "posix_memalign"]
  | MainPc.allocMsg => mainGoto s (MainPc.fill 0) [Ev.out "Allocated src and dst buffers\n"]
  | MainPc.fill i =>
    if i < c.S then
      { mainGoto s (MainPc.fill (i + 1)) [Ev.store Buf.src i (i % 256)] with
        src := Function.update s.src i (i % 256) }
    else mainGoto s MainPc.fillMsg []
  | MainPc.fillMsg => mainGoto s MainPc.clean [Ev.out "Initialized src buffer\n"]
  | MainPc.clean => mainGoto s MainPc.cleanMsg [Ev.fence]
  | MainPc.cleanMsg =>
    mainGoto s MainPc.spawnDma [Ev.out "Cleaned cache lines for src buffer\n"]
  | MainPc.spawnDma =>
    if c.dmaCreateOk then
      { mainGoto s MainPc.spawnMsg [] with dma := ⟨DmaPc.sleep, s.dma.trace⟩ }
    else mainGoto s MainPc.failed [Ev.perror "pthread_create dma"]
  | MainPc.spawnMsg => mainGoto s (MainPc.spawn 0) [Ev.out "Launched DMA simulator\n"]
  | MainPc.spawn i =>
    if i < NUM_HARTS then
      if c.workerCreateOk i then
        { mainGoto s (MainPc.spawn (i + 1)) [] with
          workers := Function.update s.workers i ⟨WorkerPc.entry, (s.workers i).trace⟩ }
      else mainGoto s MainPc.failed [Ev.perror "pthread_create hart"]
    else mainGoto s MainPc.waitMsg []
  | MainPc.waitMsg => mainGoto s MainPc.joinDma [Ev.out "Waiting for threads to finish\n"]
  | MainPc.joinDma =>
    if s.dma.pc = DmaPc.done then mainGoto s (MainPc.join 0) [] else s
  | MainPc.join i =>
    if i < NUM_HARTS then
      if (s.workers i).pc = WorkerPc.done then mainGoto s (MainPc.join (i + 1)) [] else s
    else mainGoto s MainPc.freeSrc []
  | MainPc.freeSrc => { mainGoto s MainPc.freeDst [] with srcLive := false }
  | MainPc.freeDst => { mainGoto s MainPc.doneMsg [] with dstLive := false }
  | MainPc.doneMsg =>
    mainGoto s MainPc.spin
      [Ev.out "All threads done; spinning forever so init() never exits.\n"]
  | MainPc.spin => s
  | MainPc.failed => s

/-- One step of `dma_transfer`. -/
def stepDma (c : Config) (s : State) : State :=
  match s.dma.pc with
  | DmaPc.idle => s
  | DmaPc.sleep => dmaGoto s (DmaPc.copy 0) []
  | DmaPc.copy i =>
    if i < c.S then
      { dmaGoto s (DmaPc.copy (i + 1))
          [Ev.load Buf.src i (s.src i), Ev.store Buf.dst i (s.src i)] with
        dst := Function.update s.dst i (s.src i) }
    else dmaGoto s DmaPc.inval []
  | DmaPc.inval => dmaGoto s DmaPc.publish [Ev.fence]
  | DmaPc.publish =>
    { dmaGoto s DmaPc.done [Ev.storeFlag 1 MemOrder.plain] with dma_done := 1 }
  | DmaPc.done => s

/-- One step of `hart_worker` in the thread `cores[i]`, whose argument is `i`. -/
def stepWorker (i : Nat) (s : State) : State :=
  match (s.workers i).pc with
  | WorkerPc.idle => s
  | WorkerPc.entry => workerGoto s i WorkerPc.wait []
  | WorkerPc.wait =>
    if s.dma_done = 0 then workerGoto s i WorkerPc.wait [Ev.loadFlag s.dma_done MemOrder.plain]
    else workerGoto s i WorkerPc.inval [Ev.loadFlag s.dma_done MemOrder.plain]
  | WorkerPc.inval => workerGoto s i WorkerPc.hdr [Ev.fence]
  | WorkerPc.hdr =>
    workerGoto s i (WorkerPc.dump 0)
      [Ev.out ("\n[hart " ++ toString i ++ "] dst_buf[0..15]:")]
  | WorkerPc.dump k =>
    if k < 16 then
      workerGoto s i (WorkerPc.dump (k + 1))
        [Ev.load Buf.dst k (s.dst k), Ev.out (String.mk (dumpByte (s.dst k)))]
    else workerGoto s i WorkerPc.nl []
  | WorkerPc.nl => workerGoto s i WorkerPc.done [Ev.out "\n\n"]
  | WorkerPc.done => s

/-- One step of thread `t`; nothing runs once `main` has returned `EXIT_FAILURE`. -/
def step (c : Config) (t : Tid) (s : State) : State :=
  if s.main.pc = MainPc.failed then s
  else
    match t with
    | Tid.main => stepMain c s
    | Tid.dma => stepDma c s
    | Tid.worker i => stepWorker i s

/-- The state after the interleaving `sched`, started from `s`. -/
def runFrom (c : Config) (s : State) (sched : List Tid) : State :=
  sched.foldl (fun st t => step c t st) s

/-- The state after the interleaving `sched`, started from process start. -/
def run (c : Config) (sched : List Tid) : State := runFrom c (init c) sched

/-- Number of bytes of `src_buf` that `main` has filled when it is at `pc`. -/
def filled (c : Config) : MainPc → Nat
  | MainPc.alloc => 0
  | MainPc.allocMsg => 0
  | MainPc.fill i => i
  | MainPc.failed => 0
  | _ => c.S

/-- The program point of `main` is after `pthread_create(&dma_th, ..)` succeeded. -/
def dmaSpawned : MainPc → Bool
  | MainPc.spawnMsg => true
  | MainPc.spawn _ => true
  | MainPc.waitMsg => true
  | MainPc.joinDma => true
  | MainPc.join _ => true
  | MainPc.freeSrc => true
  | MainPc.freeDst => true
  | MainPc.doneMsg => true
  | MainPc.spin => true
  | MainPc.failed => true
  | _ => false

/-- Number of bytes of `dst_buf` the DMA thread has copied when it is at `pc`. -/
def copied (c : Config) : DmaPc → Nat
  | DmaPc.idle => 0
  | DmaPc.sleep => 0
  | DmaPc.copy i => i
  | _ => c.S

/-- A worker at this program point has left its wait loop. -/
def pastWait : WorkerPc → Bool
  | WorkerPc.inval => true
  | WorkerPc.hdr => true
  | WorkerPc.dump _ => true
  | WorkerPc.nl => true
  | WorkerPc.done => true
  | _ => false

/-- A worker at this program point has finished its own `cache_invalidate`. -/
def pastInvalidate : WorkerPc → Bool
  | WorkerPc.hdr => true
  | WorkerPc.dump _ => true
  | WorkerPc.nl => true
  | WorkerPc.done => true
  | _ => false

/-- The invariant of the protocol on the shared objects. -/
structure Inv (c : Config) (s : State) : Prop where
  src_ok : ∀ j, j < filled c s.main.pc → j < c.S → s.src j = j % 256
  spawned : s.dma.pc ≠ DmaPc.idle → dmaSpawned s.main.pc = true ∧
    (s.main.pc ≠ MainPc.failed → filled c s.main.pc = c.S)
  dst_ok : ∀ j, j < copied c s.dma.pc → j < c.S → s.dst j = j % 256
  flag : s.dma_done = if s.dma.pc = DmaPc.done then 1 else 0
  woken : ∀ i, pastWait (s.workers i).pc = true → s.dma_done = 1

end Linux

namespace BareMetal

/-! ### Predicates on traces -/

/-- The trace contains no load from `dst_buf`. -/
def NoDstLoad (t : List Ev) : Prop := ∀ i v, Ev.load Buf.dst i v ∉ t

/-- The list `iv` is the instruction sequence of a complete call
`cache_invalidate(dst_buf, BUFFER_SIZE)`. -/
def IsInvalidate (c : Config) (iv : List Ev) : Prop :=
  ∃ fuel, cache_invalidate c.w c.zicbom fuel c.dstAddr c.S = some iv

/-- The instructions `dn` executed so far by the loop of `cache_invalidate(dst_buf, ..)`,
now at line address `p`, are a prefix of a complete call: whatever the rest of the loop
executes from `p`, the whole is what the call executes. -/
def InvalidateSoFar (c : Config) (dn : List Ev) (p : Nat) : Prop :=
  ∀ fuel rest, cmoLoop c.w (invalInstr c.zicbom) (rangeEnd c.w c.dstAddr c.S) fuel p = some rest →
    IsInvalidate c (dn ++ rest)

/-- The trace is a load of `dma_done` that returned non-zero, then a complete
`cache_invalidate(dst_buf, ..)`, and only then (in `b`) possibly loads from `dst_buf`. -/
def Guarded (c : Config) (t : List Ev) : Prop :=
  ∃ a v o iv b, t = a ++ Ev.loadFlag v o :: (iv ++ b) ∧ v ≠ 0 ∧ IsInvalidate c iv ∧
    NoDstLoad (a ++ Ev.loadFlag v o :: iv)

/-- The invariant of an observer's trace, by program point. -/
def ObsGuard (c : Config) : Pc → List Ev → Prop
  | Pc.start, t => NoDstLoad t
  | Pc.oMsg, t => NoDstLoad t
  | Pc.wait, t => NoDstLoad t
  | Pc.oInval p, t =>
    ∃ a v o dn, t = a ++ Ev.loadFlag v o :: dn ∧ v ≠ 0 ∧ NoDstLoad t ∧ InvalidateSoFar c dn p
  | Pc.oHdr, t => Guarded c t
  | Pc.dump _, t => Guarded c t
  | Pc.nl, t => Guarded c t
  | Pc.wfi, t => Guarded c t
  | _, _ => True

end BareMetal

namespace Linux

/-! ### Predicates on traces -/

/-- The trace contains no load from `dst_buf`. -/
def NoDstLoad (t : List Ev) : Prop := ∀ i v, Ev.load Buf.dst i v ∉ t

/-- The trace is a load of `dma_done` that returned non-zero, then the fence of
`cache_invalidate(dst_buf, ..)`, and only then (in `b`) possibly loads from `dst_buf`. -/
def Guarded (t : List Ev) : Prop :=
  ∃ a v o b, t = a ++ Ev.loadFlag v o :: Ev.fence :: b ∧ v ≠ 0 ∧
    NoDstLoad (a ++ [Ev.loadFlag v o, Ev.fence])

/-- The invariant of a worker's trace, by program point. -/
def WorkerGuard : WorkerPc → List Ev → Prop
  | WorkerPc.idle, t => t = []
  | WorkerPc.entry, t => NoDstLoad t
  | WorkerPc.wait, t => NoDstLoad t
  | WorkerPc.inval, t => ∃ a v o, t = a ++ [Ev.loadFlag v o] ∧ v ≠ 0 ∧ NoDstLoad t
  | _, t => Guarded t

/-- Number of worker threads `main` has created when it is at `pc`. -/
def created : MainPc → Nat
  | MainPc.alloc => 0
  | MainPc.allocMsg => 0
  | MainPc.fill _ => 0
  | MainPc.fillMsg => 0
  | MainPc.clean => 0
  | MainPc.cleanMsg => 0
  | MainPc.spawnDma => 0
  | MainPc.spawnMsg => 0
  | MainPc.spawn i => min i NUM_HARTS
  | _ => NUM_HARTS

/-- The invariant on the worker threads: every trace is guarded, and the threads `main`
has not created yet are idle. -/
structure WorkersInv (s : State) : Prop where
  guard : ∀ k, WorkerGuard (s.workers k).pc (s.workers k).trace
  fresh : s.main.pc ≠ MainPc.failed → ∀ k, created s.main.pc ≤ k →
    (s.workers k).pc = WorkerPc.idle

end Linux

namespace BareMetal

/-- The trace contains a store to every byte of `dst_buf`. -/
def CopyLogged (c : Config) (t : List Ev) : Prop :=
  ∀ j, j < c.S → ∃ v, Ev.store Buf.dst j v ∈ t

/-- The trace is: stores to every byte of `dst_buf` (in `a`), then a complete
`cache_invalidate(dst_buf, ..)`, then the release store of 1 to `dma_done`. -/
def Published (c : Config) (t : List Ev) : Prop :=
  ∃ a iv b, t = a ++ iv ++ Ev.storeFlag 1 MemOrder.release :: b ∧ CopyLogged c a ∧
    IsInvalidate c iv

/-- The invariant of the producer's trace, by program point. -/
def ProdGuard (c : Config) : Pc → List Ev → Prop
  | Pc.copy i, t => ∀ j, j < i → j < c.S → ∃ v, Ev.store Buf.dst j v ∈ t
  | Pc.inval p, t => ∃ a dn, t = a ++ dn ∧ CopyLogged c a ∧ InvalidateSoFar c dn p
  | Pc.publish, t => ∃ a iv, t = a ++ iv ∧ CopyLogged c a ∧ IsInvalidate c iv
  | Pc.pDone, t => Published c t
  | Pc.wfi, t => Published c t
  | _, _ => True

end BareMetal

namespace Linux

/-- The trace contains a store to every byte of `dst_buf`. -/
def CopyLogged (c : Config) (t : List Ev) : Prop :=
  ∀ j, j < c.S → ∃ v, Ev.store Buf.dst j v ∈ t

/-- The trace is: stores to every byte of `dst_buf` (in `a`), then the fence of
`cache_invalidate(dst_buf, ..)`, then the store of 1 to `dma_done`. -/
def Published (c : Config) (t : List Ev) : Prop :=
  ∃ a b, t = a ++ Ev.fence :: Ev.storeFlag 1 MemOrder.plain :: b ∧ CopyLogged c a

/-- The invariant of the trace of the DMA thread, by program point. -/
def DmaGuard (c : Config) : DmaPc → List Ev → Prop
  | DmaPc.copy i, t => ∀ j, j < i → j < c.S → ∃ v, Ev.store Buf.dst j v ∈ t
  | DmaPc.inval, t => CopyLogged c t
  | DmaPc.publish, t => ∃ a, t = a ++ [Ev.fence] ∧ CopyLogged c a
  | DmaPc.done, t => Published c t
  | _, _ => True

end Linux

namespace BareMetal

/-- Number of steps of the interleaving `sched`, run from `s`, that change `dma_done`. -/
def flagChanges (c : Config) : State → List Nat → Nat
  | _, [] => 0
  | s, g :: rest =>
    (if (step c g s).dma_done = s.dma_done then 0 else 1) + flagChanges c (step c g s) rest

/-- The producer at this program point has left its fill loop. -/
def fillDone : Pc → Bool
  | Pc.clean _ => true
  | Pc.delay _ => true
  | Pc.copy _ => true
  | Pc.inval _ => true
  | Pc.publish => true
  | Pc.pDone => true
  | Pc.wfi => true
  | _ => false

end BareMetal

namespace Linux

/-- Number of steps of the interleaving `sched`, run from `s`, that change `dma_done`. -/
def flagChanges (c : Config) : State → List Tid → Nat
  | _, [] => 0
  | s, t :: rest =>
    (if (step c t s).dma_done = s.dma_done then 0 else 1) + flagChanges c (step c t s) rest

/-- Thread `main` at this program point has left its fill loop. -/
def fillDone : MainPc → Bool
  | MainPc.alloc => false
  | MainPc.allocMsg => false
  | MainPc.fill _ => false
  | _ => true

end Linux

/-! ## Effect of the cache-maintenance instructions on one hart's cache and on memory

The instructions `cbo.clean` and `cbo.inval` are inline assembly; their effect is taken
from the comments next to them in `bare-metal/dma_multi_core.c`: `cbo.clean` writes a dirty
block back to memory and keeps it valid in the cache, `cbo.inval` de-allocates the block
and discards its data without write-back.  A fence changes no contents. -/

/-- One valid cache block: its 64 bytes (by offset) and whether it is dirty. -/
structure CacheLine where
  data : Nat → Nat
  dirty : Bool

/-- Main memory (by address) and the private cache of the executing hart (by block number
`address / CACHE_LINE`; `none` when the block is not cached). -/
structure Memory where
  ram : Nat → Nat
  cache : Nat → Option CacheLine

/-- The value a load from address `a` returns: the cached copy when the block is cached. -/
def Memory.read (m : Memory) (a : Nat) : Nat :=
  match m.cache (a / CACHE_LINE) with
  | some l => l.data (a % CACHE_LINE)
  | none => m.ram a

/-- The instruction `cbo.clean (p)`. -/
def cboCleanOn (p : Nat) (m : Memory) : Memory :=
  match m.cache (p / CACHE_LINE) with
  | some l =>
    if l.dirty then
      { ram := fun a => if a / CACHE_LINE = p / CACHE_LINE then l.data (a % CACHE_LINE)
                        else m.ram a
        cache := Function.update m.cache (p / CACHE_LINE) (some ⟨l.data, false⟩) }
    else m
  | none => m

/-- The instruction `cbo.inval (p)`. -/
def cboInvalOn (p : Nat) (m : Memory) : Memory :=
  { m with cache := Function.update m.cache (p / CACHE_LINE) none }

/-- The effect of one event on memory and cache. -/
def effect : Ev → Memory → Memory
  | Ev.cboClean p, m => cboCleanOn p m
  | Ev.cboInval p, m => cboInvalOn p m
  | _, m => m

/-- The effect of a list of events, in order. -/
def effects (evs : List Ev) (m : Memory) : Memory := evs.foldl (fun st e => effect e st) m

/-- Bare-metal `cache_clean(addr, size)` as a function on memory and cache. -/
def cleanRange (w : Nat) (zicbom : Bool) (fuel addr size : Nat) (m : Memory) : Option Memory :=
  (cache_clean w zicbom fuel addr size).map (fun evs => effects evs m)

/-- Bare-metal `cache_invalidate(addr, size)` as a function on memory and cache. -/
def invalidateRange (w : Nat) (zicbom : Bool) (fuel addr size : Nat) (m : Memory) :
    Option Memory :=
  (cache_invalidate w zicbom fuel addr size).map (fun evs => effects evs m)

/-- Hosted `cache_clean` and `cache_invalidate`: the single `fence rw, rw`, whatever the
arguments. -/
def Linux.cacheOp (_addr _size : Nat) (m : Memory) : Memory := effects [Ev.fence] m

/-- The block `q` is not dirty in the cache. -/
def NotDirty (m : Memory) (q : Nat) : Prop := ∀ l, m.cache q = some l → l.dirty = false

/-- A list of `cbo.clean` instructions and fences. -/
def OnlyClean (evs : List Ev) : Prop := ∀ x, x ∈ evs → x = Ev.fence ∨ ∃ q, x = Ev.cboClean q

/-- The block `q` is not in the cache. -/
def NotCached (m : Memory) (q : Nat) : Prop := m.cache q = none

/-- A list of `cbo.inval` instructions and fences. -/
def OnlyInval (evs : List Ev) : Prop := ∀ x, x ∈ evs → x = Ev.fence ∨ ∃ q, x = Ev.cboInval q

/-- The uppercase hexadecimal digit of `n < 16`: one of `0`..`9`, `A`..`F`. -/
def upperHex (n : Nat) : Char := if n < 10 then Char.ofNat (48 + n) else Char.ofNat (55 + n)

namespace BareMetal

/-- The text the dump loop has printed after `i` iterations, when `dst_buf` holds `dst`. -/
def dumpText (dst : Nat → Nat) : Nat → List Char
  | 0 => []
  | i + 1 => dumpText dst i ++ dumpByte (dst i)

/-- The banner `[hart N] starting`. -/
def startText (h : Nat) : List Char := (hartTag h ++ "] starting\n").data

/-- The banner `[hart N] wait for DMA`. -/
def waitText (h : Nat) : List Char := (hartTag h ++ "] wait for DMA \n").data

/-- The header `[hart N] dst_buf[0..15]:`. -/
def hdrText (h : Nat) : List Char := (hartTag h ++ "] dst_buf[0..15]:\n").data

/-- The console text of observer hart `h` when it is at `pc` and `dst_buf` holds `dst`. -/
def obsConsole (h : Nat) (dst : Nat → Nat) : Pc → List Char
  | Pc.oMsg => startText h
  | Pc.wait => startText h ++ waitText h
  | Pc.oInval _ => startText h ++ waitText h
  | Pc.oHdr => startText h ++ waitText h
  | Pc.dump i => startText h ++ waitText h ++ hdrText h ++ dumpText dst i
  | Pc.nl => startText h ++ waitText h ++ hdrText h ++ dumpText dst 16
  | Pc.wfi => startText h ++ waitText h ++ hdrText h ++ dumpText dst 16 ++ "\n".data
  | _ => []

/-- The invariant of an observer's console text. -/
def ConsoleOk (h : Nat) (s : State) : Prop :=
  consoleOf (s.harts h).trace = obsConsole h s.dst (s.harts h).pc ∧
    ∀ i, (s.harts h).pc = Pc.dump i → i ≤ 16

end BareMetal

namespace Linux

/-- The text the dump loop has printed after `i` iterations, when `dst_buf` holds `dst`. -/
def dumpText (dst : Nat → Nat) : Nat → List Char
  | 0 => []
  | i + 1 => dumpText dst i ++ dumpByte (dst i)

/-- The header printed by `printf("\n[hart %d] dst_buf[0..15]:", hart_id)`. -/
def hdrText (k : Nat) : List Char := ("\n[hart " ++ toString k ++ "] dst_buf[0..15]:").data

/-- The console text of the worker with argument `k` when it is at `pc` and `dst_buf`
holds `dst`. -/
def workerConsole (k : Nat) (dst : Nat → Nat) : WorkerPc → List Char
  | WorkerPc.dump i => hdrText k ++ dumpText dst i
  | WorkerPc.nl => hdrText k ++ dumpText dst 16
  | WorkerPc.done => hdrText k ++ dumpText dst 16 ++ "\n\n".data
  | _ => []

/-- The invariant of a worker's console text. -/
def ConsoleOk (k : Nat) (s : State) : Prop :=
  consoleOf (s.workers k).trace = workerConsole k s.dst (s.workers k).pc ∧
    ∀ i, (s.workers k).pc = WorkerPc.dump i → i ≤ 16

end Linux

namespace BareMetal

/-! ### The control state of harts 0 and 1 -/

/-- The program image of the repository: `BUFFER_SIZE` bytes per buffer, a 64-bit
`uintptr_t`, the two buffers at consecutive cache-line aligned addresses, built with
`__riscv_zicbom`. -/
def prog : Config :=
  { S := BUFFER_SIZE, w := 64, srcAddr := 0x80001000, dstAddr := 0x80001400, zicbom := true }

/-- The part of the state that decides the control flow of harts 0 and 1. -/
structure Ctl where
  pc0 : Pc
  pc1 : Pc
  flag : Nat
  deriving DecidableEq, Repr

/-- The control state of a machine state. -/
def ctl (s : State) : Ctl := ⟨(s.harts 0).pc, (s.harts 1).pc, s.dma_done⟩

/-- A machine state with the given control state. -/
def ofCtl (k : Ctl) : State :=
  { src := fun _ => 0, dst := fun _ => 0, dma_done := k.flag,
    harts := fun h => if h = 0 then ⟨k.pc0, []⟩ else ⟨k.pc1, []⟩ }

/-- One step of hart `h` on the control state. -/
def ctlStep (c : Config) (h : Nat) (k : Ctl) : Ctl := ctl (step c h (ofCtl k))

/-- Number of steps hart 0 of `prog` takes from reset to its final `wfi` loop. -/
def producerSteps : Nat := 1002089

/-- An interleaving in which hart 0 runs to its `wfi` loop, then hart 1 takes `n` steps. -/
@[irreducible] def producerThenObserver (n : Nat) : List Nat :=
  List.replicate producerSteps 0 ++ List.replicate n 1

end BareMetal

namespace Linux

/-! ### The control state of the threads the program creates -/

/-- A run of the program of the repository in which every library call succeeds; the
allocated blocks hold zeros. -/
def prog : Config :=
  { S := BUFFER_SIZE, src0 := fun _ => 0, dst0 := fun _ => 0, allocOk := true,
    dmaCreateOk := true, workerCreateOk := fun _ => true }

/-- The part of the state that decides the control flow of `main`, `dma_th` and
`cores[0..3]`. -/
structure Ctl where
  main : MainPc
  dma : DmaPc
  w0 : WorkerPc
  w1 : WorkerPc
  w2 : WorkerPc
  w3 : WorkerPc
  flag : Nat
  deriving DecidableEq, Repr

/-- The control state of a process state. -/
def ctl (s : State) : Ctl :=
  ⟨s.main.pc, s.dma.pc, (s.workers 0).pc, (s.workers 1).pc, (s.workers 2).pc,
    (s.workers 3).pc, s.dma_done⟩

/-- A process state with the given control state. -/
def ofCtl (k : Ctl) : State :=
  { src := fun _ => 0, dst := fun _ => 0, dma_done := k.flag, srcLive := true,
    dstLive := true, main := ⟨k.main, []⟩, dma := ⟨k.dma, []⟩,
    workers := fun i =>
      match i with
      | 0 => ⟨k.w0, []⟩
      | 1 => ⟨k.w1, []⟩
      | 2 => ⟨k.w2, []⟩
      | 3 => ⟨k.w3, []⟩
      | _ => ⟨WorkerPc.idle, []⟩ }

/-- One step of thread `t` on the control state. -/
def ctlStep (c : Config) (t : Tid) (k : Ctl) : Ctl := ctl (step c t (ofCtl k))

/-- Number of steps of `main` of `prog` from process start to the end of its spawn loop. -/
def mainSteps : Nat := 1037

/-- Number of steps of the DMA thread of `prog` from its creation to its return. -/
def dmaSteps : Nat := 1028

/-- An interleaving in which `main` creates all threads, the DMA thread runs to its end,
and then each of the four workers in turn takes `n` steps. -/
@[irreducible] def producerThenWorkers (n : Nat) : List Tid :=
  List.replicate mainSteps Tid.main ++ (List.replicate dmaSteps Tid.dma ++
    (List.replicate n (Tid.worker 0) ++ (List.replicate n (Tid.worker 1) ++
      (List.replicate n (Tid.worker 2) ++ List.replicate n (Tid.worker 3)))))

end Linux

namespace BareMetal

/-- What the bare-metal program does to `dma_done`: it stores only the value 1, with
release order, and loads with acquire order. -/
def FlagAccessOk : Ev → Prop
  | Ev.storeFlag v o => v = 1 ∧ o = MemOrder.release
  | Ev.loadFlag _ o => o = MemOrder.acquire
  | _ => True

end BareMetal

namespace Linux

/-- What the hosted program does to `dma_done`: it stores only the value 1; stores and
loads are plain accesses to the `volatile int`. -/
def FlagAccessOk : Ev → Prop
  | Ev.storeFlag v o => v = 1 ∧ o = MemOrder.plain
  | Ev.loadFlag _ o => o = MemOrder.plain
  | _ => True

end Linux

/-! # Theorems -/

/-! ### Arithmetic of the loop -/

theorem lineBase_eq (w a : Nat) (hw : 6 ≤ w) (ha : a < 2 ^ w) :
    lineBase w a = a / 64 * 64 := by
  unfold lineBase CACHE_LINE
  have h1 : 2 ^ w - 64 = (2 ^ (w - 6) - 1) <<< 6 := by
    have : 2 ^ w = 2 ^ (w - 6) * 2 ^ 6 := by rw [← pow_add]; congr 1; omega
    rw [Nat.shiftLeft_eq, this, Nat.sub_mul]
  have h2 : a / 64 * 64 = (a >>> 6) <<< 6 := by
    rw [Nat.shiftLeft_eq, Nat.shiftRight_eq_div_pow]
  rw [h1, h2]
  apply Nat.eq_of_testBit_eq
  intro i
  rw [Nat.testBit_and, Nat.testBit_shiftLeft, Nat.testBit_shiftLeft,
    Nat.testBit_two_pow_sub_one, Nat.testBit_shiftRight]
  by_cases h6 : 6 ≤ i
  · have e : 6 + (i - 6) = i := by omega
    have h6' : i ≥ 6 := h6
    simp only [h6', e, decide_True, Bool.true_and]
    by_cases hi : i < w
    · have : i - 6 < w - 6 := by omega
      simp [this]
    · have : ¬ (i - 6 < w - 6) := by omega
      simp only [this, decide_False, Bool.and_false]
      symm
      apply Nat.testBit_lt_two_pow
      calc a < 2 ^ w := ha
        _ ≤ 2 ^ i := Nat.pow_le_pow_right (by norm_num) (by omega)
  · have h6' : ¬ (i ≥ 6) := h6
    simp [h6']

/-- Without wrap-around the loop started at the aligned address `p` runs `n` times, where
`n` is the number of lines from `p` up to `e`. -/
theorem cmoLoop_run (w : Nat) (blk : Nat → Ev) (e : Nat) :
    ∀ (n p : Nat), p + 64 * n < 2 ^ w → (∀ k, k < n → p + 64 * k < e) →
      ¬ (p + 64 * n < e) →
      cmoLoop w blk e (n + 1) p = some ((List.range' p n 64).map blk ++ [Ev.fence]) := by
  intro n
  induction n with
  | zero =>
    intro p _ _ hex
    simp only [Nat.mul_zero, Nat.add_zero] at hex
    simp [cmoLoop, hex]
  | succ n ih =>
    intro p hlt hin hex
    have hp : p < e := by simpa using hin 0 (by omega)
    have hnext : nextLine w p = p + 64 := by
      unfold nextLine CACHE_LINE
      exact Nat.mod_eq_of_lt (by omega)
    have h := ih (p + 64) (by omega)
      (fun k hk => by have := hin (k + 1) (by omega); omega)
      (by intro hc; apply hex; omega)
    rw [cmoLoop, if_pos hp, hnext, h]
    simp [List.range'_succ]

theorem cmoLoop_fuel_mono (w : Nat) (blk : Nat → Ev) (e : Nat) :
    ∀ (fuel k p : Nat) (r : List Ev), cmoLoop w blk e fuel p = some r →
      cmoLoop w blk e (fuel + k) p = some r := by
  intro fuel
  induction fuel with
  | zero => intro k p r h; simp [cmoLoop] at h
  | succ fuel ih =>
    intro k p r h
    have e1 : fuel + 1 + k = (fuel + k) + 1 := by omega
    rw [e1, cmoLoop]
    rw [cmoLoop] at h
    by_cases hp : p < e
    · rw [if_pos hp] at h ⊢
      cases hq : cmoLoop w blk e fuel (nextLine w p) with
      | none => rw [hq] at h; simp at h
      | some r1 =>
        rw [hq] at h
        rw [ih k _ r1 hq]
        exact h
    · rw [if_neg hp] at h ⊢
      exact h

theorem mem_range'_lines (s n p : Nat) (hs : 64 ∣ s) :
    p ∈ List.range' s n 64 ↔ 64 ∣ p ∧ s ≤ p ∧ p < s + 64 * n := by
  rw [List.mem_range']
  constructor
  · rintro ⟨i, hi, rfl⟩
    refine ⟨?_, ?_, ?_⟩
    · exact Dvd.dvd.add hs (Dvd.intro i rfl)
    · omega
    · omega
  · rintro ⟨⟨c, hc⟩, h1, h2⟩
    obtain ⟨d, hd⟩ := hs
    refine ⟨c - d, ?_, ?_⟩
    · omega
    · omega

/-- The lines visited by the loops of `cache_clean` and `cache_invalidate` on a range
that does not reach the last line of the address space. -/
theorem cache_loops_lines (w : Nat) (zicbom : Bool) (addr size : Nat)
    (h : addr + size ≤ 2 ^ w - 64) :
    ∃ (fuel0 : Nat) (ps : List Nat),
      (∀ fuel, fuel0 ≤ fuel →
        cache_clean w zicbom fuel addr size
          = some (ps.map (cleanInstr zicbom) ++ [Ev.fence]) ∧
        cache_invalidate w zicbom fuel addr size
          = some (ps.map (invalInstr zicbom) ++ [Ev.fence])) ∧
      ps.Pairwise (fun a b => a < b) ∧
      (∀ p, p ∈ ps ↔ 64 ∣ p ∧ addr / 64 * 64 ≤ p ∧ p < (addr + size + 63) / 64 * 64) ∧
      (1 ≤ size → ∀ p, p ∈ ps ↔ 64 ∣ p ∧ p < addr + size ∧ addr < p + 64) ∧
      (64 ∣ addr → size = 1024 → ps.length = 16) := by
  have hbase : lineBase w addr = addr / 64 * 64 := by
    by_cases hw : 6 ≤ w
    · have h64 : 2 ^ 6 ≤ 2 ^ w := Nat.pow_le_pow_right (by norm_num) hw
      exact lineBase_eq w addr hw (by omega)
    · have h64 : 2 ^ w ≤ 2 ^ 6 := Nat.pow_le_pow_right (by norm_num) (by omega)
      have ha : addr = 0 := by omega
      subst ha
      simp [lineBase]
  have hend : rangeEnd w addr size = addr + size := by
    unfold rangeEnd
    have hpos : 0 < 2 ^ w := Nat.two_pow_pos w
    by_cases hw : 64 ≤ 2 ^ w
    · exact Nat.mod_eq_of_lt (by omega)
    · exact Nat.mod_eq_of_lt (by omega)
  have hpos : 0 < 2 ^ w := Nat.two_pow_pos w
  have hrun : ∀ blk : Nat → Ev, ∀ fuel, (addr + size + 63) / 64 - addr / 64 + 1 ≤ fuel →
      cmoLoop w blk (addr + size) fuel (addr / 64 * 64)
        = some ((List.range' (addr / 64 * 64) ((addr + size + 63) / 64 - addr / 64) 64).map blk
            ++ [Ev.fence]) := by
    intro blk fuel hf
    have h1 := cmoLoop_run w blk (addr + size) ((addr + size + 63) / 64 - addr / 64)
      (addr / 64 * 64) (by omega) (fun k hk => by omega) (by omega)
    have h2 := cmoLoop_fuel_mono w blk (addr + size) _
      (fuel - ((addr + size + 63) / 64 - addr / 64 + 1)) _ _ h1
    have e1 : (addr + size + 63) / 64 - addr / 64 + 1
        + (fuel - ((addr + size + 63) / 64 - addr / 64 + 1)) = fuel := by omega
    rw [e1] at h2
    exact h2
  refine ⟨(addr + size + 63) / 64 - addr / 64 + 1,
    List.range' (addr / 64 * 64) ((addr + size + 63) / 64 - addr / 64) 64, ?_, ?_, ?_, ?_, ?_⟩
  · intro fuel hf
    unfold cache_clean cache_invalidate
    rw [hbase, hend]
    exact ⟨hrun _ fuel hf, hrun _ fuel hf⟩
  · exact List.pairwise_lt_range' _ _ 64 (by norm_num)
  · intro p
    rw [mem_range'_lines _ _ _ (Dvd.intro_left _ rfl)]
    constructor
    · rintro ⟨h1, h2, h3⟩
      exact ⟨h1, h2, by omega⟩
    · rintro ⟨h1, h2, h3⟩
      exact ⟨h1, h2, by omega⟩
  · intro hs p
    rw [mem_range'_lines _ _ _ (Dvd.intro_left _ rfl)]
    constructor
    · rintro ⟨⟨c, hc⟩, h2, h3⟩
      exact ⟨⟨c, hc⟩, by omega, by omega⟩
    · rintro ⟨⟨c, hc⟩, h2, h3⟩
      exact ⟨⟨c, hc⟩, by omega, by omega⟩
  · rintro ⟨c, hc⟩ hs
    rw [List.length_range']
    omega

namespace BareMetal

theorem step_harts_other (c : Config) (h g : Nat) (s : State) (hg : g ≠ h) :
    (step c h s).harts g = s.harts g := by
  unfold step
  cases (s.harts h).pc <;> simp only [] <;> (try split_ifs) <;> simp [goto, hg]

theorem step_flag (c : Config) (h : Nat) (s : State) :
    (step c h s).dma_done = if (s.harts h).pc = Pc.publish then 1 else s.dma_done := by
  unfold step
  cases (s.harts h).pc <;> simp only [] <;> split_ifs <;> simp_all [goto]

theorem step_src (c : Config) (h : Nat) (s : State) (j : Nat) :
    (step c h s).src j = if (s.harts h).pc = Pc.fill j ∧ j < c.S then j % 256 else s.src j := by
  unfold step
  cases (s.harts h).pc <;> simp only [] <;> split_ifs <;>
    simp_all [goto, Function.update_apply] <;> omega

theorem step_dst (c : Config) (h : Nat) (s : State) (j : Nat) :
    (step c h s).dst j = if (s.harts h).pc = Pc.copy j ∧ j < c.S then s.src j else s.dst j := by
  unfold step
  cases (s.harts h).pc <;> simp only [] <;> split_ifs <;>
    simp_all [goto, Function.update_apply] <;> omega


theorem step_producer_path (c : Config) (s : State)
    (hp : onProducerPath (s.harts 0).pc = true) :
    onProducerPath ((step c 0 s).harts 0).pc = true := by
  unfold step
  cases hpc : (s.harts 0).pc <;> rw [hpc] at hp <;> simp only [] <;> (try split_ifs) <;>
    simp_all [goto, onProducerPath]

theorem step_observer_path (c : Config) (h : Nat) (s : State) (hh : h ≠ 0)
    (hp : onObserverPath (s.harts h).pc = true) :
    onObserverPath ((step c h s).harts h).pc = true := by
  unfold step
  cases hpc : (s.harts h).pc <;> rw [hpc] at hp <;> simp only [] <;> (try split_ifs) <;>
    simp_all [goto, onObserverPath]

theorem step_filled (c : Config) (s : State) (hp : onProducerPath (s.harts 0).pc = true)
    (j : Nat) (hj : j < filled c ((step c 0 s).harts 0).pc) (hS : j < c.S) :
    j < filled c (s.harts 0).pc ∨ (s.harts 0).pc = Pc.fill j := by
  unfold step at hj
  cases hpc : (s.harts 0).pc <;> rw [hpc] at hp hj <;> simp only [] at hj <;>
    (try split_ifs at hj) <;> simp_all [goto, onProducerPath, filled] <;> omega

theorem step_copied (c : Config) (s : State) (hp : onProducerPath (s.harts 0).pc = true)
    (j : Nat) (hj : j < copied c ((step c 0 s).harts 0).pc) (hS : j < c.S) :
    j < copied c (s.harts 0).pc ∨ (s.harts 0).pc = Pc.copy j := by
  unfold step at hj
  cases hpc : (s.harts 0).pc <;> rw [hpc] at hp hj <;> simp only [] at hj <;>
    (try split_ifs at hj) <;> simp_all [goto, onProducerPath, copied] <;> omega

theorem step_published (c : Config) (s : State) (hp : onProducerPath (s.harts 0).pc = true) :
    published ((step c 0 s).harts 0).pc
      = (published (s.harts 0).pc || decide ((s.harts 0).pc = Pc.publish)) := by
  unfold step
  cases hpc : (s.harts 0).pc <;> rw [hpc] at hp <;> simp only [] <;> (try split_ifs) <;>
    simp_all [goto, onProducerPath, published]

theorem step_pastWait (c : Config) (h : Nat) (s : State)
    (hp : onObserverPath (s.harts h).pc = true) (hh : h ≠ 0)
    (hw : pastWait ((step c h s).harts h).pc = true) :
    pastWait (s.harts h).pc = true ∨ s.dma_done ≠ 0 := by
  unfold step at hw
  cases hpc : (s.harts h).pc <;> rw [hpc] at hp hw <;> simp only [] at hw <;>
    (try split_ifs at hw) <;> simp_all [goto, onObserverPath, pastWait]

theorem observer_not_fill (pc : Pc) (h : onObserverPath pc = true) (j : Nat) :
    pc ≠ Pc.fill j ∧ pc ≠ Pc.copy j ∧ pc ≠ Pc.publish := by
  cases pc <;> simp_all [onObserverPath]

theorem inv_init (c : Config) : Inv c init := by
  constructor <;> simp [init, onProducerPath, onObserverPath, filled, copied, published, pastWait]

theorem inv_step (c : Config) (g : Nat) (s : State) (hI : Inv c s) : Inv c (step c g s) := by
  obtain ⟨h1, h2, h3, h5, h6, h7⟩ := hI
  by_cases hg : g = 0
  · subst hg
    have hobs : ∀ h, h ≠ 0 → (step c 0 s).harts h = s.harts h :=
      fun h hh => step_harts_other c 0 h s hh
    refine ⟨step_producer_path c s h1, ?_, ?_, ?_, ?_, ?_⟩
    · intro h hh; rw [hobs h hh]; exact h2 h hh
    · intro j hj hS
      rw [step_src]
      split_ifs with hc
      · rfl
      · rcases step_filled c s h1 j hj hS with hlt | heq
        · exact h3 j hlt hS
        · exact absurd ⟨heq, hS⟩ hc
    · intro j hj hS
      rw [step_dst]
      split_ifs with hc
      · apply h3 j _ hS
        rw [hc.1]; simpa [filled] using hS
      · rcases step_copied c s h1 j hj hS with hlt | heq
        · exact h5 j hlt hS
        · exact absurd ⟨heq, hS⟩ hc
    · rw [step_flag, step_published c s h1, h6]
      by_cases hpub : (s.harts 0).pc = Pc.publish
      · simp [hpub]
      · simp [hpub]
    · intro h hh hw
      rw [hobs h hh] at hw
      have := h7 h hh hw
      rw [step_flag]; split_ifs <;> simp [this]
  · have hpg := h2 g hg
    have h0 : (step c g s).harts 0 = s.harts 0 := step_harts_other c g 0 s (Ne.symm hg)
    have hnf := observer_not_fill _ hpg
    have hflag : (step c g s).dma_done = s.dma_done := by
      rw [step_flag, if_neg (hnf 0).2.2]
    refine ⟨by rw [h0]; exact h1, ?_, ?_, ?_, ?_, ?_⟩
    · intro h hh
      by_cases hhg : h = g
      · subst hhg; exact step_observer_path c h s hh hpg
      · rw [step_harts_other c g h s hhg]; exact h2 h hh
    · intro j hj hS
      rw [h0] at hj
      rw [step_src, if_neg (fun hc => (hnf j).1 hc.1)]
      exact h3 j hj hS
    · intro j hj hS
      rw [h0] at hj
      rw [step_dst, if_neg (fun hc => (hnf j).2.1 hc.1)]
      exact h5 j hj hS
    · rw [hflag, h0]; exact h6
    · intro h hh hw
      rw [hflag]
      by_cases hhg : h = g
      · subst hhg
        rcases step_pastWait c h s hpg hh hw with hp | hne
        · exact h7 h hh hp
        · rw [h6] at hne ⊢
          split_ifs at hne ⊢ with hc
          · rfl
          · exact absurd rfl hne
      · rw [step_harts_other c g h s hhg] at hw; exact h7 h hh hw

theorem inv_run (c : Config) (sched : List Nat) : Inv c (run c sched) := by
  unfold run runFrom
  induction sched using List.reverseRecOn with
  | nil => exact inv_init c
  | append_singleton l a ih => rw [List.foldl_append]; exact inv_step c a _ ih

end BareMetal

namespace Linux

theorem inv_init_hosted (c : Config) : Inv c (init c) := by
  constructor <;> simp [init, filled, copied, pastWait]

/-! ### What one step of each thread changes -/

theorem stepMain_dst (c : Config) (s : State) : (stepMain c s).dst = s.dst := by
  unfold stepMain
  cases s.main.pc <;> simp only [] <;> (try split_ifs) <;> rfl

theorem stepMain_flag (c : Config) (s : State) : (stepMain c s).dma_done = s.dma_done := by
  unfold stepMain
  cases s.main.pc <;> simp only [] <;> (try split_ifs) <;> rfl

theorem stepMain_src (c : Config) (s : State) (j : Nat) :
    (stepMain c s).src j
      = if s.main.pc = MainPc.fill j ∧ j < c.S then j % 256 else s.src j := by
  unfold stepMain
  cases s.main.pc <;> simp only [] <;> (try split_ifs) <;>
    simp_all [mainGoto, Function.update_apply] <;> omega

theorem stepMain_dma (c : Config) (s : State) :
    (stepMain c s).dma.pc
      = if s.main.pc = MainPc.spawnDma ∧ c.dmaCreateOk = true then DmaPc.sleep else s.dma.pc := by
  unfold stepMain
  cases s.main.pc <;> simp only [] <;> (try split_ifs) <;> simp_all [mainGoto]

theorem stepMain_workers (c : Config) (s : State) (k : Nat) :
    ((stepMain c s).workers k).pc = (s.workers k).pc ∨
      ((stepMain c s).workers k).pc = WorkerPc.entry := by
  unfold stepMain
  cases s.main.pc <;> simp only [] <;> (try split_ifs) <;>
    simp [mainGoto, Function.update_apply] <;> (try split_ifs) <;> simp

theorem stepMain_filled (c : Config) (s : State) (j : Nat)
    (hj : j < filled c (stepMain c s).main.pc) (hS : j < c.S) :
    j < filled c s.main.pc ∨ s.main.pc = MainPc.fill j := by
  unfold stepMain at hj
  cases hpc : s.main.pc <;> rw [hpc] at hj <;> simp only [] at hj <;>
    (try split_ifs at hj) <;> simp_all [mainGoto, filled] <;> omega

theorem stepMain_spawned (c : Config) (s : State)
    (h : dmaSpawned s.main.pc = true ∧ (s.main.pc ≠ MainPc.failed → filled c s.main.pc = c.S)) :
    dmaSpawned (stepMain c s).main.pc = true ∧
      ((stepMain c s).main.pc ≠ MainPc.failed → filled c (stepMain c s).main.pc = c.S) := by
  unfold stepMain
  cases hpc : s.main.pc <;> rw [hpc] at h <;> simp only [] <;>
    (try split_ifs) <;> simp_all [mainGoto, filled, dmaSpawned]

theorem stepMain_spawnDma (c : Config) (s : State)
    (h : s.main.pc = MainPc.spawnDma ∧ c.dmaCreateOk = true) :
    dmaSpawned (stepMain c s).main.pc = true ∧
      ((stepMain c s).main.pc ≠ MainPc.failed → filled c (stepMain c s).main.pc = c.S) := by
  unfold stepMain
  simp [h.1, h.2, mainGoto, dmaSpawned, filled]

theorem inv_stepMain (c : Config) (s : State) (hI : Inv c s) : Inv c (stepMain c s) := by
  obtain ⟨h1, h2, h3, h4, h5⟩ := hI
  have hdma := stepMain_dma c s
  refine ⟨?_, ?_, ?_, ?_, ?_⟩
  · intro j hj hS
    rw [stepMain_src]
    split_ifs with hc
    · rfl
    · rcases stepMain_filled c s j hj hS with hlt | heq
      · exact h1 j hlt hS
      · exact absurd ⟨heq, hS⟩ hc
  · intro hne
    by_cases hc : s.main.pc = MainPc.spawnDma ∧ c.dmaCreateOk = true
    · exact stepMain_spawnDma c s hc
    · rw [if_neg hc] at hdma
      rw [hdma] at hne
      exact stepMain_spawned c s (h2 hne)
  · intro j hj hS
    rw [stepMain_dst]
    apply h3 j _ hS
    by_cases hc : s.main.pc = MainPc.spawnDma ∧ c.dmaCreateOk = true
    · rw [hdma, if_pos hc] at hj; simp [copied] at hj
    · rw [hdma, if_neg hc] at hj; exact hj
  · rw [stepMain_flag, h4]
    by_cases hc : s.main.pc = MainPc.spawnDma ∧ c.dmaCreateOk = true
    · rw [hdma, if_pos hc]
      by_cases hd : s.dma.pc = DmaPc.done
      · have := (h2 (by rw [hd]; simp)).1
        rw [hc.1] at this; simp [dmaSpawned] at this
      · simp [hd]
    · rw [hdma, if_neg hc]
  · intro i hw
    rw [stepMain_flag]
    rcases stepMain_workers c s i with hsame | hent
    · rw [hsame] at hw; exact h5 i hw
    · rw [hent] at hw; simp [pastWait] at hw

theorem stepDma_src (c : Config) (s : State) : (stepDma c s).src = s.src := by
  unfold stepDma
  cases s.dma.pc <;> simp only [] <;> (try split_ifs) <;> rfl

theorem stepDma_main (c : Config) (s : State) : (stepDma c s).main = s.main := by
  unfold stepDma
  cases s.dma.pc <;> simp only [] <;> (try split_ifs) <;> rfl

theorem stepDma_workers (c : Config) (s : State) : (stepDma c s).workers = s.workers := by
  unfold stepDma
  cases s.dma.pc <;> simp only [] <;> (try split_ifs) <;> rfl

theorem stepDma_dst (c : Config) (s : State) (j : Nat) :
    (stepDma c s).dst j = if s.dma.pc = DmaPc.copy j ∧ j < c.S then s.src j else s.dst j := by
  unfold stepDma
  cases s.dma.pc <;> simp only [] <;> (try split_ifs) <;>
    simp_all [dmaGoto, Function.update_apply] <;> omega

theorem stepDma_flag (c : Config) (s : State) :
    (stepDma c s).dma_done = if s.dma.pc = DmaPc.publish then 1 else s.dma_done := by
  unfold stepDma
  cases s.dma.pc <;> simp only [] <;> (try split_ifs) <;> simp_all [dmaGoto]

theorem stepDma_idle (c : Config) (s : State) (h : (stepDma c s).dma.pc ≠ DmaPc.idle) :
    s.dma.pc ≠ DmaPc.idle := by
  intro hc
  apply h
  unfold stepDma
  simp [hc]

theorem stepDma_copied (c : Config) (s : State) (j : Nat)
    (hj : j < copied c (stepDma c s).dma.pc) (hS : j < c.S) :
    j < copied c s.dma.pc ∨ s.dma.pc = DmaPc.copy j := by
  unfold stepDma at hj
  cases hpc : s.dma.pc <;> rw [hpc] at hj <;> simp only [] at hj <;>
    (try split_ifs at hj) <;> simp_all [dmaGoto, copied] <;> omega

theorem stepDma_done (c : Config) (s : State) :
    ((stepDma c s).dma.pc = DmaPc.done) ↔ (s.dma.pc = DmaPc.done ∨ s.dma.pc = DmaPc.publish) := by
  unfold stepDma
  cases hpc : s.dma.pc <;> simp only [] <;> (try split_ifs) <;> simp_all [dmaGoto]

theorem inv_stepDma (c : Config) (s : State) (hI : Inv c s) (hf : s.main.pc ≠ MainPc.failed) :
    Inv c (stepDma c s) := by
  obtain ⟨h1, h2, h3, h4, h5⟩ := hI
  refine ⟨?_, ?_, ?_, ?_, ?_⟩
  · intro j hj hS
    rw [stepDma_main] at hj
    rw [stepDma_src]
    exact h1 j hj hS
  · intro hne
    rw [stepDma_main]
    exact h2 (stepDma_idle c s hne)
  · intro j hj hS
    rw [stepDma_dst]
    split_ifs with hc
    · apply h1 j _ hS
      rw [(h2 (by rw [hc.1]; simp)).2 hf]
      exact hS
    · rcases stepDma_copied c s j hj hS with hlt | heq
      · exact h3 j hlt hS
      · exact absurd ⟨heq, hS⟩ hc
  · rw [stepDma_flag, h4]
    have hd := stepDma_done c s
    by_cases hp : s.dma.pc = DmaPc.publish
    · rw [if_pos hp, if_pos (hd.2 (Or.inr hp))]
    · rw [if_neg hp]
      by_cases hdn : s.dma.pc = DmaPc.done
      · rw [if_pos hdn, if_pos (hd.2 (Or.inl hdn))]
      · rw [if_neg hdn, if_neg]
        intro hc
        rcases hd.1 hc with h | h
        · exact hdn h
        · exact hp h
  · intro i hw
    rw [stepDma_workers] at hw
    have := h5 i hw
    rw [stepDma_flag]
    split_ifs
    · rfl
    · exact this

theorem stepWorker_src (i : Nat) (s : State) : (stepWorker i s).src = s.src := by
  unfold stepWorker
  cases (s.workers i).pc <;> simp only [] <;> (try split_ifs) <;> rfl

theorem stepWorker_dst (i : Nat) (s : State) : (stepWorker i s).dst = s.dst := by
  unfold stepWorker
  cases (s.workers i).pc <;> simp only [] <;> (try split_ifs) <;> rfl

theorem stepWorker_flag (i : Nat) (s : State) : (stepWorker i s).dma_done = s.dma_done := by
  unfold stepWorker
  cases (s.workers i).pc <;> simp only [] <;> (try split_ifs) <;> rfl

theorem stepWorker_main (i : Nat) (s : State) : (stepWorker i s).main = s.main := by
  unfold stepWorker
  cases (s.workers i).pc <;> simp only [] <;> (try split_ifs) <;> rfl

theorem stepWorker_dma (i : Nat) (s : State) : (stepWorker i s).dma = s.dma := by
  unfold stepWorker
  cases (s.workers i).pc <;> simp only [] <;> (try split_ifs) <;> rfl

theorem stepWorker_other (i k : Nat) (s : State) (hk : k ≠ i) :
    (stepWorker i s).workers k = s.workers k := by
  unfold stepWorker
  cases (s.workers i).pc <;> simp only [] <;> (try split_ifs) <;> simp [workerGoto, hk]

theorem stepWorker_pastWait (i : Nat) (s : State)
    (hw : pastWait ((stepWorker i s).workers i).pc = true) :
    pastWait (s.workers i).pc = true ∨ s.dma_done ≠ 0 := by
  unfold stepWorker at hw
  cases hpc : (s.workers i).pc <;> rw [hpc] at hw <;> simp only [] at hw <;>
    (try split_ifs at hw) <;> simp_all [workerGoto, pastWait]

theorem inv_stepWorker (c : Config) (i : Nat) (s : State) (hI : Inv c s) :
    Inv c (stepWorker i s) := by
  obtain ⟨h1, h2, h3, h4, h5⟩ := hI
  refine ⟨?_, ?_, ?_, ?_, ?_⟩
  · intro j hj hS
    rw [stepWorker_main] at hj
    rw [stepWorker_src]
    exact h1 j hj hS
  · rw [stepWorker_main, stepWorker_dma]; exact h2
  · intro j hj hS
    rw [stepWorker_dma] at hj
    rw [stepWorker_dst]
    exact h3 j hj hS
  · rw [stepWorker_flag, stepWorker_dma]; exact h4
  · intro k hw
    rw [stepWorker_flag]
    by_cases hk : k = i
    · subst hk
      rcases stepWorker_pastWait k s hw with hp | hne
      · exact h5 k hp
      · rw [h4] at hne ⊢
        split_ifs at hne ⊢ with hc
        · rfl
        · exact absurd rfl hne
    · rw [stepWorker_other i k s hk] at hw
      exact h5 k hw

theorem inv_step_hosted (c : Config) (t : Tid) (s : State) (hI : Inv c s) : Inv c (step c t s) := by
  unfold step
  split_ifs with hf
  · exact hI
  · cases t with
    | main => exact inv_stepMain c s hI
    | dma => exact inv_stepDma c s hI hf
    | worker i => exact inv_stepWorker c i s hI

theorem inv_run_hosted (c : Config) (sched : List Tid) : Inv c (run c sched) := by
  unfold run runFrom
  induction sched using List.reverseRecOn with
  | nil => exact inv_init_hosted c
  | append_singleton l a ih => rw [List.foldl_append]; exact inv_step_hosted c a _ ih

end Linux

namespace BareMetal

@[simp] theorem goto_harts_same (s : State) (h : Nat) (pc : Pc) (evs : List Ev) :
    (goto s h pc evs).harts h = ⟨pc, (s.harts h).trace ++ evs⟩ := by simp [goto]

@[simp] theorem goto_src (s : State) (h : Nat) (pc : Pc) (evs : List Ev) :
    (goto s h pc evs).src = s.src := rfl

@[simp] theorem goto_dst (s : State) (h : Nat) (pc : Pc) (evs : List Ev) :
    (goto s h pc evs).dst = s.dst := rfl

@[simp] theorem goto_flag (s : State) (h : Nat) (pc : Pc) (evs : List Ev) :
    (goto s h pc evs).dma_done = s.dma_done := rfl

end BareMetal

namespace BareMetal

/-! ### Observer traces: loads from `dst_buf` come after the own invalidate -/

theorem noDstLoad_append (t evs : List Ev) (h : NoDstLoad t)
    (h2 : ∀ i v, Ev.load Buf.dst i v ∉ evs) : NoDstLoad (t ++ evs) := by
  intro i v hm
  rcases List.mem_append.1 hm with h3 | h3
  · exact h i v h3
  · exact h2 i v h3

theorem guarded_append (c : Config) (t evs : List Ev) (h : Guarded c t) :
    Guarded c (t ++ evs) := by
  obtain ⟨a, v, o, iv, b, ht, hv, hiv, hn⟩ := h
  exact ⟨a, v, o, iv, b ++ evs, by simp [ht], hv, hiv, hn⟩

theorem invalInstr_not_load (z : Bool) (p i v : Nat) : Ev.load Buf.dst i v ≠ invalInstr z p := by
  unfold invalInstr; split <;> simp

theorem obsGuard_step (c : Config) (h : Nat) (s : State) (hh : h ≠ 0)
    (hp : onObserverPath (s.harts h).pc = true)
    (hG : ObsGuard c (s.harts h).pc (s.harts h).trace) :
    ObsGuard c ((step c h s).harts h).pc ((step c h s).harts h).trace := by
  unfold step
  cases hpc : (s.harts h).pc <;> rw [hpc] at hp hG <;> simp only [] <;>
    (try (simp [onObserverPath] at hp; done))
  case start =>
    simp only [if_neg hh, goto_harts_same, ObsGuard] at hG ⊢
    exact noDstLoad_append _ _ hG (by simp)
  case oMsg =>
    simp only [goto_harts_same, ObsGuard] at hG ⊢
    exact noDstLoad_append _ _ hG (by simp)
  case wait =>
    simp only [ObsGuard] at hG
    split_ifs with hz
    · simp only [goto_harts_same, ObsGuard]
      exact noDstLoad_append _ _ hG (by simp)
    · simp only [goto_harts_same, ObsGuard]
      refine ⟨(s.harts h).trace, s.dma_done, MemOrder.acquire, [], rfl, hz,
        noDstLoad_append _ _ hG (by simp), ?_⟩
      intro fuel rest hr
      exact ⟨fuel, by simpa [cache_invalidate] using hr⟩
  case oInval p =>
    simp only [ObsGuard] at hG
    obtain ⟨a, v, o, dn, ht, hv, hn, hl⟩ := hG
    split_ifs with hlt
    · simp only [goto_harts_same, ObsGuard]
      refine ⟨a, v, o, dn ++ [invalInstr c.zicbom p], by simp [ht], hv,
        noDstLoad_append _ _ hn (by simp [invalInstr_not_load]), ?_⟩
      intro fuel rest hr
      have := hl (fuel + 1) (invalInstr c.zicbom p :: rest) (by simp [cmoLoop, hlt, hr])
      simpa using this
    · simp only [goto_harts_same, ObsGuard]
      refine ⟨a, v, o, dn ++ [Ev.fence], [], by simp [ht], hv, ?_, ?_⟩
      · exact hl 1 [Ev.fence] (by simp [cmoLoop, hlt])
      · have := noDstLoad_append _ [Ev.fence] hn (by simp)
        simpa [ht] using this
  case oHdr =>
    simp only [goto_harts_same, ObsGuard] at hG ⊢
    exact guarded_append c _ _ hG
  case dump i =>
    simp only [ObsGuard] at hG
    split_ifs <;> simp only [goto_harts_same, ObsGuard] <;> exact guarded_append c _ _ hG
  case nl =>
    simp only [goto_harts_same, ObsGuard] at hG ⊢
    exact guarded_append c _ _ hG
  case wfi =>
    rw [hpc]; exact hG

theorem obsGuard_run (c : Config) (sched : List Nat) (h : Nat) (hh : h ≠ 0) :
    ObsGuard c ((run c sched).harts h).pc ((run c sched).harts h).trace := by
  induction sched using List.reverseRecOn with
  | nil => intro i v; simp [run, runFrom, init]
  | append_singleton l g ih =>
    have hI := inv_run c l
    have e : run c (l ++ [g]) = step c g (run c l) := by simp [run, runFrom, List.foldl_append]
    rw [e]
    by_cases hg : h = g
    · subst hg
      exact obsGuard_step c h _ hh (hI.obs h hh) ih
    · rw [step_harts_other c g h _ hg]; exact ih

end BareMetal

namespace Linux

/-! ### Worker traces: loads from `dst_buf` come after the own invalidate -/

@[simp] theorem workerGoto_same (s : State) (i : Nat) (pc : WorkerPc) (evs : List Ev) :
    (workerGoto s i pc evs).workers i = ⟨pc, (s.workers i).trace ++ evs⟩ := by
  simp [workerGoto]

theorem noDstLoad_append_hosted (t evs : List Ev) (h : NoDstLoad t)
    (h2 : ∀ i v, Ev.load Buf.dst i v ∉ evs) : NoDstLoad (t ++ evs) := by
  intro i v hm
  rcases List.mem_append.1 hm with h3 | h3
  · exact h i v h3
  · exact h2 i v h3

theorem guarded_append_hosted (t evs : List Ev) (h : Guarded t) : Guarded (t ++ evs) := by
  obtain ⟨a, v, o, b, ht, hv, hn⟩ := h
  exact ⟨a, v, o, b ++ evs, by simp [ht], hv, hn⟩

theorem workerGuard_stepWorker (i : Nat) (s : State)
    (hG : WorkerGuard (s.workers i).pc (s.workers i).trace) :
    WorkerGuard ((stepWorker i s).workers i).pc ((stepWorker i s).workers i).trace := by
  unfold stepWorker
  cases hpc : (s.workers i).pc <;> rw [hpc] at hG <;> simp only []
  case idle => rw [hpc]; exact hG
  case entry =>
    simp only [workerGoto_same, WorkerGuard] at hG ⊢
    exact noDstLoad_append_hosted _ _ hG (by simp)
  case wait =>
    simp only [WorkerGuard] at hG
    split_ifs with hz
    · simp only [workerGoto_same, WorkerGuard]
      exact noDstLoad_append_hosted _ _ hG (by simp)
    · simp only [workerGoto_same, WorkerGuard]
      exact ⟨(s.workers i).trace, s.dma_done, MemOrder.plain, rfl, hz,
        noDstLoad_append_hosted _ _ hG (by simp)⟩
  case inval =>
    simp only [WorkerGuard] at hG
    obtain ⟨a, v, o, ht, hv, hn⟩ := hG
    simp only [workerGoto_same, WorkerGuard]
    refine ⟨a, v, o, [], by simp [ht], hv, ?_⟩
    have := noDstLoad_append_hosted _ [Ev.fence] hn (by simp)
    simpa [ht] using this
  case hdr =>
    simp only [workerGoto_same, WorkerGuard] at hG ⊢
    exact guarded_append_hosted _ _ hG
  case dump k =>
    simp only [WorkerGuard] at hG
    split_ifs <;> simp only [workerGoto_same, WorkerGuard] <;> exact guarded_append_hosted _ _ hG
  case nl =>
    simp only [workerGoto_same, WorkerGuard] at hG ⊢
    exact guarded_append_hosted _ _ hG
  case done => rw [hpc]; exact hG

theorem stepMain_workers_eq (c : Config) (s : State) (k : Nat) :
    (stepMain c s).workers k
      = if s.main.pc = MainPc.spawn k ∧ k < NUM_HARTS ∧ c.workerCreateOk k = true then
          ⟨WorkerPc.entry, (s.workers k).trace⟩
        else s.workers k := by
  unfold stepMain
  cases hpc : s.main.pc <;> simp only [] <;> (try split_ifs) <;>
    simp_all [mainGoto, Function.update_apply]
  all_goals (first | omega | (intro hk; subst hk; simp_all))

theorem stepMain_created (c : Config) (s : State) (k : Nat)
    (hk : created (stepMain c s).main.pc ≤ k) :
    created s.main.pc ≤ k ∧
      ¬ (s.main.pc = MainPc.spawn k ∧ k < NUM_HARTS ∧ c.workerCreateOk k = true) := by
  unfold stepMain at hk
  cases hpc : s.main.pc <;> rw [hpc] at hk <;> simp only [] at hk <;>
    (try split_ifs at hk) <;> simp_all [mainGoto, created, NUM_HARTS] <;> omega

theorem workersInv_init (c : Config) : WorkersInv (init c) := by
  constructor <;> simp [init, WorkerGuard]

theorem workersInv_step (c : Config) (t : Tid) (s : State) (hW : WorkersInv s) :
    WorkersInv (step c t s) := by
  unfold step
  split_ifs with hf
  · exact hW
  · obtain ⟨hg, hfr⟩ := hW
    cases t with
    | main =>
      constructor
      · intro k
        rw [stepMain_workers_eq]
        split_ifs with hc
        · have hidle := hfr hf k (by rw [hc.1]; simp [created])
          have hgk := hg k
          rw [hidle] at hgk
          simp only [WorkerGuard] at hgk ⊢
          rw [hgk]; intro i v; simp
        · exact hg k
      · intro _ k hk
        obtain ⟨h1, h2⟩ := stepMain_created c s k hk
        rw [stepMain_workers_eq, if_neg h2]
        exact hfr hf k h1
    | dma =>
      constructor
      · intro k; rw [stepDma_workers]; exact hg k
      · rw [stepDma_main, stepDma_workers]; exact hfr
    | worker i =>
      constructor
      · intro k
        by_cases hk : k = i
        · subst hk; exact workerGuard_stepWorker k s (hg k)
        · rw [stepWorker_other i k s hk]; exact hg k
      · rw [stepWorker_main]
        intro hne k hk
        by_cases hki : k = i
        · subst hki
          have := hfr hne k hk
          unfold stepWorker
          simp [this]
        · rw [stepWorker_other i k s hki]; exact hfr hne k hk

theorem workersInv_run (c : Config) (sched : List Tid) : WorkersInv (run c sched) := by
  unfold run runFrom
  induction sched using List.reverseRecOn with
  | nil => exact workersInv_init c
  | append_singleton l a ih => rw [List.foldl_append]; exact workersInv_step c a _ ih

end Linux

namespace BareMetal

/-! ### Producer trace: copy, then invalidate, then publish -/

theorem prodGuard_step (c : Config) (s : State)
    (hp : onProducerPath (s.harts 0).pc = true)
    (hG : ProdGuard c (s.harts 0).pc (s.harts 0).trace) :
    ProdGuard c ((step c 0 s).harts 0).pc ((step c 0 s).harts 0).trace := by
  unfold step
  cases hpc : (s.harts 0).pc <;> rw [hpc] at hp hG <;> simp only [] <;>
    (try (simp [onProducerPath] at hp; done))
  case start => simp [ProdGuard]
  case pMsg => simp [ProdGuard]
  case fill i => split_ifs <;> simp [ProdGuard]
  case clean p => split_ifs <;> simp [ProdGuard]
  case delay k => split_ifs <;> simp [ProdGuard]
  case copy i =>
    simp only [ProdGuard] at hG
    split_ifs with hlt
    · simp only [goto_harts_same, ProdGuard]
      intro j hj hS
      by_cases hji : j = i
      · subst hji; exact ⟨s.src j, by simp⟩
      · obtain ⟨v, hv⟩ := hG j (by omega) hS
        exact ⟨v, List.mem_append_left _ hv⟩
    · simp only [goto_harts_same, ProdGuard]
      refine ⟨(s.harts 0).trace, [], by simp, fun j hj => hG j (by omega) hj, ?_⟩
      intro fuel rest hr
      exact ⟨fuel, by simpa [cache_invalidate] using hr⟩
  case inval p =>
    simp only [ProdGuard] at hG
    obtain ⟨a, dn, ht, ha, hl⟩ := hG
    split_ifs with hlt
    · simp only [goto_harts_same, ProdGuard]
      refine ⟨a, dn ++ [invalInstr c.zicbom p], by simp [ht], ha, ?_⟩
      intro fuel rest hr
      have := hl (fuel + 1) (invalInstr c.zicbom p :: rest) (by simp [cmoLoop, hlt, hr])
      simpa using this
    · simp only [goto_harts_same, ProdGuard]
      exact ⟨a, dn ++ [Ev.fence], by simp [ht], ha, hl 1 [Ev.fence] (by simp [cmoLoop, hlt])⟩
  case publish =>
    simp only [goto_harts_same, ProdGuard] at hG ⊢
    obtain ⟨a, iv, ht, ha, hiv⟩ := hG
    exact ⟨a, iv, [], by simp [ht], ha, hiv⟩
  case pDone =>
    simp only [goto_harts_same, ProdGuard] at hG ⊢
    obtain ⟨a, iv, b, ht, ha, hiv⟩ := hG
    exact ⟨a, iv, b ++ [Ev.out (hartTag 0 ++ "] DMA done\n")], by simp [ht], ha, hiv⟩
  case wfi =>
    rw [hpc]; exact hG

theorem prodGuard_run (c : Config) (sched : List Nat) :
    ProdGuard c ((run c sched).harts 0).pc ((run c sched).harts 0).trace := by
  induction sched using List.reverseRecOn with
  | nil => simp [run, runFrom, init, ProdGuard]
  | append_singleton l g ih =>
    have hI := inv_run c l
    have e : run c (l ++ [g]) = step c g (run c l) := by simp [run, runFrom, List.foldl_append]
    rw [e]
    by_cases hg : g = 0
    · subst hg
      exact prodGuard_step c _ hI.prod ih
    · rw [step_harts_other c g 0 _ (Ne.symm hg)]; exact ih

end BareMetal

namespace Linux

/-! ### Trace of the DMA thread: copy, then invalidate, then publish -/

theorem dmaGuard_stepDma (c : Config) (s : State) (hG : DmaGuard c s.dma.pc s.dma.trace) :
    DmaGuard c (stepDma c s).dma.pc (stepDma c s).dma.trace := by
  unfold stepDma
  cases hpc : s.dma.pc <;> rw [hpc] at hG <;> simp only []
  case idle => rw [hpc]; simp [DmaGuard]
  case sleep => simp [dmaGoto, DmaGuard]
  case copy i =>
    simp only [DmaGuard] at hG
    split_ifs with hlt
    · simp only [dmaGoto, DmaGuard]
      intro j hj hS
      by_cases hji : j = i
      · subst hji; exact ⟨s.src j, by simp⟩
      · obtain ⟨v, hv⟩ := hG j (by omega) hS
        exact ⟨v, List.mem_append_left _ hv⟩
    · simp only [dmaGoto, DmaGuard]
      intro j hj
      obtain ⟨v, hv⟩ := hG j (by omega) hj
      exact ⟨v, List.mem_append_left _ hv⟩
  case inval =>
    simp only [dmaGoto, DmaGuard] at hG ⊢
    exact ⟨s.dma.trace, rfl, hG⟩
  case publish =>
    simp only [dmaGoto, DmaGuard] at hG ⊢
    obtain ⟨a, ht, ha⟩ := hG
    exact ⟨a, [], by simp [ht], ha⟩
  case done => rw [hpc]; exact hG

theorem stepMain_dma_trace (c : Config) (s : State) :
    (stepMain c s).dma.trace = s.dma.trace := by
  unfold stepMain
  cases s.main.pc <;> simp only [] <;> (try split_ifs) <;> rfl

theorem dmaGuard_run (c : Config) (sched : List Tid) :
    DmaGuard c (run c sched).dma.pc (run c sched).dma.trace := by
  induction sched using List.reverseRecOn with
  | nil => simp [run, runFrom, init, DmaGuard]
  | append_singleton l t ih =>
    have hI := inv_run_hosted c l
    have e : run c (l ++ [t]) = step c t (run c l) := by simp [run, runFrom, List.foldl_append]
    rw [e]
    unfold step
    split_ifs with hf
    · exact ih
    · cases t with
      | main =>
        simp only []
        rw [stepMain_dma_trace, stepMain_dma]
        split_ifs with hc
        · simp [DmaGuard]
        · exact ih
      | dma => exact dmaGuard_stepDma c _ ih
      | worker i => simp only []; rw [stepWorker_dma]; exact ih

end Linux

namespace BareMetal

/-! ### Consequences of the invariants -/

theorem run_append (c : Config) (l1 l2 : List Nat) :
    run c (l1 ++ l2) = runFrom c (run c l1) l2 := by
  simp [run, runFrom, List.foldl_append]

theorem runFrom_cons (c : Config) (s : State) (g : Nat) (l : List Nat) :
    runFrom c s (g :: l) = runFrom c (step c g s) l := rfl

theorem inv_runFrom (c : Config) (l : List Nat) : ∀ s, Inv c s → Inv c (runFrom c s l) := by
  induction l with
  | nil => intro s h; exact h
  | cons g l ih => intro s h; exact ih _ (inv_step c g s h)

theorem published_copied (c : Config) (pc : Pc) (h : published pc = true) :
    copied c pc = c.S := by
  cases pc <;> simp_all [published, copied]

theorem pastInvalidate_pastWait (pc : Pc) (h : pastInvalidate pc = true) :
    pastWait pc = true := by
  cases pc <;> simp_all [pastInvalidate, pastWait]

theorem inv_flag_published (c : Config) (s : State) (hI : Inv c s) (h : s.dma_done = 1) :
    published (s.harts 0).pc = true := by
  have := hI.flag
  rw [h] at this
  by_contra hc
  simp [hc] at this

theorem inv_dst_of_flag (c : Config) (s : State) (hI : Inv c s) (h : s.dma_done = 1)
    (i : Nat) (hi : i < c.S) : s.dst i = i % 256 := by
  apply hI.dst_ok i _ hi
  rw [published_copied c _ (inv_flag_published c s hI h)]
  exact hi

theorem inv_flag_le (c : Config) (s : State) (hI : Inv c s) :
    s.dma_done = 0 ∨ s.dma_done = 1 := by
  have := hI.flag
  split_ifs at this
  · exact Or.inr this
  · exact Or.inl this

theorem step_flag_cases (c : Config) (g : Nat) (s : State) (hI : Inv c s) :
    (step c g s).dma_done = s.dma_done ∨ (s.dma_done = 0 ∧ (step c g s).dma_done = 1) := by
  rw [step_flag]
  split_ifs with hc
  · rcases inv_flag_le c s hI with h | h
    · exact Or.inr ⟨h, rfl⟩
    · exact Or.inl h.symm
  · exact Or.inl rfl

theorem flagChanges_le (c : Config) (l : List Nat) :
    ∀ s, Inv c s → (s.dma_done = 1 → flagChanges c s l = 0) ∧ flagChanges c s l ≤ 1 := by
  induction l with
  | nil => intro s _; simp [flagChanges]
  | cons g l ih =>
    intro s hI
    obtain ⟨ih1, ih2⟩ := ih _ (inv_step c g s hI)
    rcases step_flag_cases c g s hI with h | ⟨h0, h1⟩
    · constructor
      · intro hs
        simp only [flagChanges, h, if_true, Nat.zero_add]
        exact ih1 (by rw [h]; exact hs)
      · simp only [flagChanges, h, if_true, Nat.zero_add]
        exact ih2
    · constructor
      · intro hs; omega
      · simp only [flagChanges]
        rw [if_neg (by omega), ih1 h1]

theorem fillDone_step (c : Config) (s : State) (hp : onProducerPath (s.harts 0).pc = true)
    (hf : fillDone (s.harts 0).pc = true) : fillDone ((step c 0 s).harts 0).pc = true := by
  unfold step
  cases hpc : (s.harts 0).pc <;> rw [hpc] at hp hf <;> simp only [] <;> (try split_ifs) <;>
    simp_all [goto, onProducerPath, fillDone]

theorem fillDone_not_fill (pc : Pc) (h : fillDone pc = true) (j : Nat) : pc ≠ Pc.fill j := by
  cases pc <;> simp_all [fillDone]

theorem published_not_copy (pc : Pc) (h : published pc = true) (j : Nat) : pc ≠ Pc.copy j := by
  cases pc <;> simp_all [published]

theorem src_frozen (c : Config) (l : List Nat) :
    ∀ s, Inv c s → fillDone (s.harts 0).pc = true → (runFrom c s l).src = s.src := by
  induction l with
  | nil => intro s _ _; rfl
  | cons g l ih =>
    intro s hI hf
    have hsrc : (step c g s).src = s.src := by
      funext j
      rw [step_src]
      by_cases hg : g = 0
      · subst hg
        rw [if_neg (fun hc => fillDone_not_fill _ hf j hc.1)]
      · rw [if_neg (fun hc => (observer_not_fill _ (hI.obs g hg) j).1 hc.1)]
    have hf2 : fillDone ((step c g s).harts 0).pc = true := by
      by_cases hg : g = 0
      · subst hg; exact fillDone_step c s hI.prod hf
      · rw [step_harts_other c g 0 s (Ne.symm hg)]; exact hf
    rw [runFrom_cons, ih _ (inv_step c g s hI) hf2, hsrc]

theorem flag_stays (c : Config) (g : Nat) (s : State) (h : s.dma_done = 1) :
    (step c g s).dma_done = 1 := by
  rw [step_flag]; split_ifs
  · rfl
  · exact h

theorem dst_frozen (c : Config) (l : List Nat) :
    ∀ s, Inv c s → s.dma_done = 1 → (runFrom c s l).dst = s.dst := by
  induction l with
  | nil => intro s _ _; rfl
  | cons g l ih =>
    intro s hI hf
    have hdst : (step c g s).dst = s.dst := by
      funext j
      rw [step_dst]
      by_cases hg : g = 0
      · subst hg
        rw [if_neg (fun hc => published_not_copy _ (inv_flag_published c s hI hf) j hc.1)]
      · rw [if_neg (fun hc => (observer_not_fill _ (hI.obs g hg) j).2.1 hc.1)]
    rw [runFrom_cons, ih _ (inv_step c g s hI) (flag_stays c g s hf), hdst]

theorem guarded_load (c : Config) (t pre post : List Ev) (i v : Nat) (hG : Guarded c t)
    (ht : t = pre ++ Ev.load Buf.dst i v :: post) :
    ∃ a f o iv b, pre = a ++ Ev.loadFlag f o :: (iv ++ b) ∧ f ≠ 0 ∧ IsInvalidate c iv := by
  obtain ⟨a, f, o, iv, b, hab, hf, hiv, hn⟩ := hG
  have e : (a ++ Ev.loadFlag f o :: iv) ++ b = pre ++ Ev.load Buf.dst i v :: post := by
    rw [← ht, hab]; simp
  rcases List.append_eq_append_iff.1 e with ⟨a', h1, _⟩ | ⟨c', h1, h2⟩
  · exact ⟨a, f, o, iv, a', by rw [h1]; simp, hf, hiv⟩
  · cases c' with
    | nil => exact ⟨a, f, o, iv, [], by simp at h1; rw [← h1]; simp, hf, hiv⟩
    | cons x xs =>
      exfalso
      simp only [List.cons_append, List.cons.injEq] at h2
      apply hn i v
      rw [h1, ← h2.1]
      simp

theorem noDstLoad_absurd (t pre post : List Ev) (i v : Nat) (hn : NoDstLoad t)
    (ht : t = pre ++ Ev.load Buf.dst i v :: post) : False := by
  apply hn i v
  rw [ht]; simp

theorem observer_load_guarded (c : Config) (sched : List Nat) (h : Nat) (hh : h ≠ 0)
    (pre post : List Ev) (i v : Nat)
    (ht : ((run c sched).harts h).trace = pre ++ Ev.load Buf.dst i v :: post) :
    ∃ a f o iv b, pre = a ++ Ev.loadFlag f o :: (iv ++ b) ∧ f ≠ 0 ∧ IsInvalidate c iv := by
  have hG := obsGuard_run c sched h hh
  have hp := (inv_run c sched).obs h hh
  cases hpc : ((run c sched).harts h).pc <;> rw [hpc] at hG hp <;>
    simp only [ObsGuard] at hG <;>
    (try (simp [onObserverPath] at hp; done)) <;>
    (try exact guarded_load c _ pre post i v hG ht) <;>
    (try exact absurd (noDstLoad_absurd _ pre post i v hG ht) id)
  case oInval p =>
    obtain ⟨_, _, _, _, _, _, hn, _⟩ := hG
    exact absurd (noDstLoad_absurd _ pre post i v hn ht) id

end BareMetal

namespace Linux

/-! ### Consequences of the invariants -/

theorem run_append_hosted (c : Config) (l1 l2 : List Tid) :
    run c (l1 ++ l2) = runFrom c (run c l1) l2 := by
  simp [run, runFrom, List.foldl_append]

theorem runFrom_cons_hosted (c : Config) (s : State) (t : Tid) (l : List Tid) :
    runFrom c s (t :: l) = runFrom c (step c t s) l := rfl

theorem pastInvalidate_pastWait_hosted (pc : WorkerPc) (h : pastInvalidate pc = true) :
    pastWait pc = true := by
  cases pc <;> simp_all [pastInvalidate, pastWait]

theorem inv_flag_done (c : Config) (s : State) (hI : Inv c s) (h : s.dma_done = 1) :
    s.dma.pc = DmaPc.done := by
  have := hI.flag
  rw [h] at this
  by_contra hc
  simp [hc] at this

theorem inv_dst_of_flag_hosted (c : Config) (s : State) (hI : Inv c s) (h : s.dma_done = 1)
    (i : Nat) (hi : i < c.S) : s.dst i = i % 256 := by
  apply hI.dst_ok i _ hi
  rw [inv_flag_done c s hI h]
  exact hi

theorem inv_flag_le_hosted (c : Config) (s : State) (hI : Inv c s) :
    s.dma_done = 0 ∨ s.dma_done = 1 := by
  have := hI.flag
  split_ifs at this
  · exact Or.inr this
  · exact Or.inl this

theorem step_flag_hosted (c : Config) (t : Tid) (s : State) :
    (step c t s).dma_done = s.dma_done ∨ (step c t s).dma_done = 1 := by
  unfold step
  split_ifs
  · exact Or.inl rfl
  · cases t with
    | main => exact Or.inl (stepMain_flag c s)
    | dma =>
      simp only []
      rw [stepDma_flag]
      split_ifs
      · exact Or.inr rfl
      · exact Or.inl rfl
    | worker i => exact Or.inl (stepWorker_flag i s)

theorem step_flag_cases_hosted (c : Config) (t : Tid) (s : State) (hI : Inv c s) :
    (step c t s).dma_done = s.dma_done ∨ (s.dma_done = 0 ∧ (step c t s).dma_done = 1) := by
  rcases step_flag_hosted c t s with h | h
  · exact Or.inl h
  · rcases inv_flag_le_hosted c s hI with h0 | h1
    · exact Or.inr ⟨h0, h⟩
    · exact Or.inl (by rw [h, h1])

theorem flagChanges_le_hosted (c : Config) (l : List Tid) :
    ∀ s, Inv c s → (s.dma_done = 1 → flagChanges c s l = 0) ∧ flagChanges c s l ≤ 1 := by
  induction l with
  | nil => intro s _; simp [flagChanges]
  | cons g l ih =>
    intro s hI
    obtain ⟨ih1, ih2⟩ := ih _ (inv_step_hosted c g s hI)
    rcases step_flag_cases_hosted c g s hI with h | ⟨h0, h1⟩
    · constructor
      · intro hs
        simp only [flagChanges, h, if_true, Nat.zero_add]
        exact ih1 (by rw [h]; exact hs)
      · simp only [flagChanges, h, if_true, Nat.zero_add]
        exact ih2
    · constructor
      · intro hs; omega
      · simp only [flagChanges]
        rw [if_neg (by omega), ih1 h1]

theorem fillDone_stepMain (c : Config) (s : State) (hf : fillDone s.main.pc = true) :
    fillDone (stepMain c s).main.pc = true := by
  unfold stepMain
  cases hpc : s.main.pc <;> rw [hpc] at hf <;> simp only [] <;> (try split_ifs) <;>
    simp_all [mainGoto, fillDone]

theorem fillDone_not_fill_hosted (pc : MainPc) (h : fillDone pc = true) (j : Nat) :
    pc ≠ MainPc.fill j := by
  cases pc <;> simp_all [fillDone]

theorem step_src_frozen (c : Config) (t : Tid) (s : State) (hf : fillDone s.main.pc = true) :
    (step c t s).src = s.src ∧ fillDone (step c t s).main.pc = true := by
  unfold step
  split_ifs
  · exact ⟨rfl, hf⟩
  · cases t with
    | main =>
      refine ⟨?_, fillDone_stepMain c s hf⟩
      funext j
      simp only []
      rw [stepMain_src, if_neg (fun hc => fillDone_not_fill_hosted _ hf j hc.1)]
    | dma => simp only []; rw [stepDma_src, stepDma_main]; exact ⟨rfl, hf⟩
    | worker i => simp only []; rw [stepWorker_src, stepWorker_main]; exact ⟨rfl, hf⟩

theorem src_frozen_hosted (c : Config) (l : List Tid) :
    ∀ s, fillDone s.main.pc = true → (runFrom c s l).src = s.src := by
  induction l with
  | nil => intro s _; rfl
  | cons g l ih =>
    intro s hf
    obtain ⟨h1, h2⟩ := step_src_frozen c g s hf
    rw [runFrom_cons_hosted, ih _ h2, h1]

theorem step_dst_frozen (c : Config) (t : Tid) (s : State) (hI : Inv c s)
    (hf : s.dma_done = 1) : (step c t s).dst = s.dst ∧ (step c t s).dma_done = 1 := by
  have hd := inv_flag_done c s hI hf
  unfold step
  split_ifs
  · exact ⟨rfl, hf⟩
  · cases t with
    | main => simp only []; rw [stepMain_dst, stepMain_flag]; exact ⟨rfl, hf⟩
    | dma =>
      simp only []
      unfold stepDma
      simp [hd, hf]
    | worker i => simp only []; rw [stepWorker_dst, stepWorker_flag]; exact ⟨rfl, hf⟩

theorem dst_frozen_hosted (c : Config) (l : List Tid) :
    ∀ s, Inv c s → s.dma_done = 1 → (runFrom c s l).dst = s.dst := by
  induction l with
  | nil => intro s _ _; rfl
  | cons g l ih =>
    intro s hI hf
    obtain ⟨h1, h2⟩ := step_dst_frozen c g s hI hf
    rw [runFrom_cons_hosted, ih _ (inv_step_hosted c g s hI) h2, h1]

theorem guarded_load_hosted (t pre post : List Ev) (i v : Nat) (hG : Guarded t)
    (ht : t = pre ++ Ev.load Buf.dst i v :: post) :
    ∃ a f o b, pre = a ++ Ev.loadFlag f o :: Ev.fence :: b ∧ f ≠ 0 := by
  obtain ⟨a, f, o, b, hab, hf, hn⟩ := hG
  have e : (a ++ [Ev.loadFlag f o, Ev.fence]) ++ b = pre ++ Ev.load Buf.dst i v :: post := by
    rw [← ht, hab]; simp
  rcases List.append_eq_append_iff.1 e with ⟨a', h1, _⟩ | ⟨c', h1, h2⟩
  · exact ⟨a, f, o, a', by rw [h1]; simp, hf⟩
  · cases c' with
    | nil => exact ⟨a, f, o, [], by simp at h1; rw [← h1], hf⟩
    | cons x xs =>
      exfalso
      simp only [List.cons_append, List.cons.injEq] at h2
      apply hn i v
      rw [h1, ← h2.1]
      simp

theorem noDstLoad_absurd_hosted (t pre post : List Ev) (i v : Nat) (hn : NoDstLoad t)
    (ht : t = pre ++ Ev.load Buf.dst i v :: post) : False := by
  apply hn i v
  rw [ht]; simp

theorem worker_load_guarded (c : Config) (sched : List Tid) (k : Nat)
    (pre post : List Ev) (i v : Nat)
    (ht : ((run c sched).workers k).trace = pre ++ Ev.load Buf.dst i v :: post) :
    ∃ a f o b, pre = a ++ Ev.loadFlag f o :: Ev.fence :: b ∧ f ≠ 0 := by
  have hG := (workersInv_run c sched).guard k
  cases hpc : ((run c sched).workers k).pc <;> rw [hpc] at hG <;>
    simp only [WorkerGuard] at hG <;>
    (try exact guarded_load_hosted _ pre post i v hG ht) <;>
    (try exact absurd (noDstLoad_absurd_hosted _ pre post i v hG ht) id)
  case idle => rw [hG] at ht; simp at ht
  case inval =>
    obtain ⟨_, _, _, _, _, hn⟩ := hG
    exact absurd (noDstLoad_absurd_hosted _ pre post i v hn ht) id

end Linux

/-! ### Idempotence of the cache maintenance functions -/

theorem effects_append (a b : List Ev) (m : Memory) :
    effects (a ++ b) m = effects b (effects a m) := by
  simp [effects, List.foldl_append]

theorem effects_cons (e : Ev) (l : List Ev) (m : Memory) :
    effects (e :: l) m = effects l (effect e m) := rfl

/-- Every instruction of the loop is the body instruction or the final fence. -/
theorem cmoLoop_events (w : Nat) (blk : Nat → Ev) (e : Nat) :
    ∀ (fuel p : Nat) (evs : List Ev), cmoLoop w blk e fuel p = some evs →
      ∀ x, x ∈ evs → x = Ev.fence ∨ ∃ q, x = blk q := by
  intro fuel
  induction fuel with
  | zero => intro p evs h; simp [cmoLoop] at h
  | succ fuel ih =>
    intro p evs h x hx
    rw [cmoLoop] at h
    split_ifs at h with hp
    · cases hq : cmoLoop w blk e fuel (nextLine w p) with
      | none => rw [hq] at h; simp at h
      | some r =>
        rw [hq] at h
        simp only [Option.map_some', Option.some.injEq] at h
        subst h
        rcases List.mem_cons.1 hx with h1 | h1
        · exact Or.inr ⟨p, h1⟩
        · exact ih _ r hq x h1
    · simp only [Option.some.injEq] at h
      subst h
      simp only [List.mem_singleton] at hx
      exact Or.inl hx

theorem cboCleanOn_of_notDirty (p : Nat) (m : Memory) (h : NotDirty m (p / CACHE_LINE)) :
    cboCleanOn p m = m := by
  unfold cboCleanOn
  cases hc : m.cache (p / CACHE_LINE) with
  | none => rfl
  | some l => simp [h l hc]

theorem cboCleanOn_notDirty_self (p : Nat) (m : Memory) :
    NotDirty (cboCleanOn p m) (p / CACHE_LINE) := by
  intro l hl
  unfold cboCleanOn at hl
  cases hc : m.cache (p / CACHE_LINE) with
  | none => rw [hc] at hl; simp only [] at hl; rw [hc] at hl; simp at hl
  | some l0 =>
    rw [hc] at hl
    simp only [] at hl
    by_cases hd : l0.dirty = true
    · simp [hd] at hl; rw [← hl]
    · simp only [hd, Bool.false_eq_true, if_false] at hl
      rw [hc] at hl
      simp only [Option.some.injEq] at hl
      rw [← hl]; simpa using hd

theorem cboCleanOn_notDirty_other (p q : Nat) (m : Memory) (h : NotDirty m q) :
    NotDirty (cboCleanOn p m) q := by
  by_cases hq : q = p / CACHE_LINE
  · subst hq; exact cboCleanOn_notDirty_self p m
  · intro l hl
    unfold cboCleanOn at hl
    cases hc : m.cache (p / CACHE_LINE) with
    | none => rw [hc] at hl; exact h l hl
    | some l0 =>
      rw [hc] at hl
      simp only [] at hl
      by_cases hd : l0.dirty = true
      · simp [hd, Function.update_apply, hq] at hl; exact h l hl
      · simp only [hd, Bool.false_eq_true, if_false] at hl
        exact h l hl

theorem effects_clean_notDirty (evs : List Ev) (hev : OnlyClean evs) :
    ∀ m q, NotDirty m q → NotDirty (effects evs m) q := by
  induction evs with
  | nil => intro m q h; exact h
  | cons e l ih =>
    intro m q h
    rw [effects_cons]
    apply ih (fun x hx => hev x (List.mem_cons_of_mem _ hx))
    rcases hev e (List.mem_cons_self _ _) with he | ⟨p, he⟩
    · subst he; exact h
    · subst he; exact cboCleanOn_notDirty_other p q m h

theorem effects_clean_cleans (evs : List Ev) (hev : OnlyClean evs) :
    ∀ m p, Ev.cboClean p ∈ evs → NotDirty (effects evs m) (p / CACHE_LINE) := by
  induction evs with
  | nil => intro m p h; simp at h
  | cons e l ih =>
    intro m p h
    have hl : OnlyClean l := fun x hx => hev x (List.mem_cons_of_mem _ hx)
    rw [effects_cons]
    rcases List.mem_cons.1 h with h1 | h1
    · subst h1
      exact effects_clean_notDirty l hl _ _ (cboCleanOn_notDirty_self p m)
    · exact ih hl _ p h1

theorem effects_clean_fixed (evs : List Ev) (hev : OnlyClean evs) :
    ∀ m, (∀ p, Ev.cboClean p ∈ evs → NotDirty m (p / CACHE_LINE)) → effects evs m = m := by
  induction evs with
  | nil => intro m _; rfl
  | cons e l ih =>
    intro m h
    have hl : OnlyClean l := fun x hx => hev x (List.mem_cons_of_mem _ hx)
    have he : effect e m = m := by
      rcases hev e (List.mem_cons_self _ _) with he | ⟨p, he⟩
      · subst he; rfl
      · subst he; exact cboCleanOn_of_notDirty p m (h p (List.mem_cons_self _ _))
    rw [effects_cons, he]
    exact ih hl m (fun p hp => h p (List.mem_cons_of_mem _ hp))

theorem effects_clean_idem (evs : List Ev) (hev : OnlyClean evs) (m : Memory) :
    effects evs (effects evs m) = effects evs m :=
  effects_clean_fixed evs hev _ (fun p hp => effects_clean_cleans evs hev m p hp)

theorem cboInvalOn_of_notCached (p : Nat) (m : Memory) (h : NotCached m (p / CACHE_LINE)) :
    cboInvalOn p m = m := by
  unfold cboInvalOn
  have : Function.update m.cache (p / CACHE_LINE) none = m.cache := by
    rw [← h]; exact Function.update_eq_self _ _
  rw [this]

theorem cboInvalOn_notCached (p q : Nat) (m : Memory)
    (h : NotCached m q ∨ q = p / CACHE_LINE) : NotCached (cboInvalOn p m) q := by
  unfold NotCached cboInvalOn
  by_cases hq : q = p / CACHE_LINE
  · subst hq; simp
  · rcases h with h | h
    · simpa [Function.update_apply, hq] using h
    · exact absurd h hq

theorem effects_inval_notCached (evs : List Ev) (hev : OnlyInval evs) :
    ∀ m q, NotCached m q → NotCached (effects evs m) q := by
  induction evs with
  | nil => intro m q h; exact h
  | cons e l ih =>
    intro m q h
    rw [effects_cons]
    apply ih (fun x hx => hev x (List.mem_cons_of_mem _ hx))
    rcases hev e (List.mem_cons_self _ _) with he | ⟨p, he⟩
    · subst he; exact h
    · subst he; exact cboInvalOn_notCached p q m (Or.inl h)

theorem effects_inval_drops (evs : List Ev) (hev : OnlyInval evs) :
    ∀ m p, Ev.cboInval p ∈ evs → NotCached (effects evs m) (p / CACHE_LINE) := by
  induction evs with
  | nil => intro m p h; simp at h
  | cons e l ih =>
    intro m p h
    have hl : OnlyInval l := fun x hx => hev x (List.mem_cons_of_mem _ hx)
    rw [effects_cons]
    rcases List.mem_cons.1 h with h1 | h1
    · subst h1
      exact effects_inval_notCached l hl _ _ (cboInvalOn_notCached p _ m (Or.inr rfl))
    · exact ih hl _ p h1

theorem effects_inval_fixed (evs : List Ev) (hev : OnlyInval evs) :
    ∀ m, (∀ p, Ev.cboInval p ∈ evs → NotCached m (p / CACHE_LINE)) → effects evs m = m := by
  induction evs with
  | nil => intro m _; rfl
  | cons e l ih =>
    intro m h
    have hl : OnlyInval l := fun x hx => hev x (List.mem_cons_of_mem _ hx)
    have he : effect e m = m := by
      rcases hev e (List.mem_cons_self _ _) with he | ⟨p, he⟩
      · subst he; rfl
      · subst he; exact cboInvalOn_of_notCached p m (h p (List.mem_cons_self _ _))
    rw [effects_cons, he]
    exact ih hl m (fun p hp => h p (List.mem_cons_of_mem _ hp))

theorem effects_inval_idem (evs : List Ev) (hev : OnlyInval evs) (m : Memory) :
    effects evs (effects evs m) = effects evs m :=
  effects_inval_fixed evs hev _ (fun p hp => effects_inval_drops evs hev m p hp)

theorem cache_clean_onlyClean (w : Nat) (z : Bool) (fuel addr size : Nat) (evs : List Ev)
    (h : cache_clean w z fuel addr size = some evs) : OnlyClean evs := by
  intro x hx
  rcases cmoLoop_events w _ _ fuel _ evs h x hx with h1 | ⟨q, h1⟩
  · exact Or.inl h1
  · unfold cleanInstr at h1
    split_ifs at h1
    · exact Or.inr ⟨q, h1⟩
    · exact Or.inl h1

theorem cache_invalidate_onlyInval (w : Nat) (z : Bool) (fuel addr size : Nat)
    (evs : List Ev) (h : cache_invalidate w z fuel addr size = some evs) : OnlyInval evs := by
  intro x hx
  rcases cmoLoop_events w _ _ fuel _ evs h x hx with h1 | ⟨q, h1⟩
  · exact Or.inl h1
  · unfold invalInstr at h1
    split_ifs at h1
    · exact Or.inr ⟨q, h1⟩
    · exact Or.inl h1

theorem cleanRange_idem (w : Nat) (z : Bool) (fuel addr size : Nat) (m : Memory) :
    (cleanRange w z fuel addr size m).bind (cleanRange w z fuel addr size)
      = cleanRange w z fuel addr size m := by
  unfold cleanRange
  cases h : cache_clean w z fuel addr size with
  | none => rfl
  | some evs =>
    simp only [Option.map_some', Option.some_bind]
    rw [effects_clean_idem evs (cache_clean_onlyClean w z fuel addr size evs h)]

theorem invalidateRange_idem (w : Nat) (z : Bool) (fuel addr size : Nat) (m : Memory) :
    (invalidateRange w z fuel addr size m).bind (invalidateRange w z fuel addr size)
      = invalidateRange w z fuel addr size m := by
  unfold invalidateRange
  cases h : cache_invalidate w z fuel addr size with
  | none => rfl
  | some evs =>
    simp only [Option.map_some', Option.some_bind]
    rw [effects_inval_idem evs (cache_invalidate_onlyInval w z fuel addr size evs h)]

/-! ### Console text -/

theorem consoleOf_append (a b : List Ev) : consoleOf (a ++ b) = consoleOf a ++ consoleOf b := by
  induction a with
  | nil => rfl
  | cons e l ih => cases e <;> simp [consoleOf, ih]

namespace BareMetal

theorem dumpText_congr (f g : Nat → Nat) :
    ∀ i, (∀ j, j < i → f j = g j) → dumpText f i = dumpText g i := by
  intro i
  induction i with
  | zero => intro _; rfl
  | succ i ih =>
    intro h
    simp only [dumpText]
    rw [ih (fun j hj => h j (by omega)), h i (by omega)]

theorem obsConsole_dst (h : Nat) (f g : Nat → Nat) (pc : Pc) (hp : pastWait pc = false) :
    obsConsole h f pc = obsConsole h g pc := by
  cases pc <;> simp_all [pastWait, obsConsole]

theorem consoleOk_step_self (c : Config) (h : Nat) (s : State) (hh : h ≠ 0)
    (hp : onObserverPath (s.harts h).pc = true) (hC : ConsoleOk h s) :
    ConsoleOk h (step c h s) := by
  obtain ⟨h1, h2⟩ := hC
  have hdst : (step c h s).dst = s.dst := by
    funext j
    rw [step_dst, if_neg (fun hc => (observer_not_fill _ hp j).2.1 hc.1)]
  rw [ConsoleOk, hdst]
  unfold step
  cases hpc : (s.harts h).pc <;> rw [hpc] at hp h1 h2 <;> simp only [] <;>
    (try (simp [onObserverPath] at hp; done))
  case start =>
    simp only [if_neg hh, goto_harts_same, consoleOf_append, h1, obsConsole]
    simp [consoleOf, startText]
  case oMsg =>
    simp only [goto_harts_same, consoleOf_append, h1, obsConsole]
    simp [consoleOf, waitText]
  case wait =>
    split_ifs <;> simp only [goto_harts_same, consoleOf_append, h1, obsConsole] <;>
      simp [consoleOf]
  case oInval p =>
    split_ifs <;> simp only [goto_harts_same, consoleOf_append, h1, obsConsole] <;>
      simp [consoleOf, invalInstr] <;> split <;> simp [consoleOf]
  case oHdr =>
    simp only [goto_harts_same, consoleOf_append, h1, obsConsole]
    simp [consoleOf, hdrText, dumpText]
  case dump i =>
    have hi := h2 i rfl
    split_ifs with hlt
    · simp only [goto_harts_same, consoleOf_append, h1, obsConsole]
      refine ⟨?_, ?_⟩
      · simp [consoleOf, dumpText]
      · intro k hk; simp only [Pc.dump.injEq] at hk; omega
    · have : i = 16 := by omega
      subst this
      simp only [goto_harts_same, consoleOf_append, h1, obsConsole]
      simp [consoleOf]
  case nl =>
    simp only [goto_harts_same, consoleOf_append, h1, obsConsole]
    simp [consoleOf]
  case wfi =>
    rw [hpc]
    exact ⟨h1, by simp⟩

theorem consoleOk_step_other (c : Config) (g h : Nat) (s : State) (hI : Inv c s) (hh : h ≠ 0)
    (hg : h ≠ g) (hC : ConsoleOk h s) : ConsoleOk h (step c g s) := by
  obtain ⟨h1, h2⟩ := hC
  rw [ConsoleOk, step_harts_other c g h s hg]
  refine ⟨?_, h2⟩
  rw [h1]
  by_cases hw : pastWait (s.harts h).pc = true
  · have hf := hI.woken h hh hw
    have : (step c g s).dst = s.dst := by
      have := dst_frozen c [g] s hI hf
      simpa [runFrom] using this
    rw [this]
  · exact obsConsole_dst h _ _ _ (by simpa using hw)

theorem consoleOk_run (c : Config) (sched : List Nat) (h : Nat) (hh : h ≠ 0) :
    ConsoleOk h (run c sched) := by
  induction sched using List.reverseRecOn with
  | nil => simp [ConsoleOk, run, runFrom, init, consoleOf, obsConsole]
  | append_singleton l g ih =>
    have hI := inv_run c l
    have e : run c (l ++ [g]) = step c g (run c l) := by simp [run, runFrom, List.foldl_append]
    rw [e]
    by_cases hg : h = g
    · subst hg
      exact consoleOk_step_self c h _ hh (hI.obs h hh) ih
    · exact consoleOk_step_other c g h _ hI hh hg ih

theorem dumpText_pattern :
    dumpText (fun j => j % 256) 16
      = " 00 01 02 03 04 05 06 07 08 09 0A 0B 0C 0D 0E 0F".data := by
  rfl

theorem observer_console (c : Config) (sched : List Nat) (h : Nat) (hh : h ≠ 0)
    (hS : 16 ≤ c.S) (hpc : ((run c sched).harts h).pc = Pc.wfi) :
    consoleOf ((run c sched).harts h).trace
      = startText h ++ waitText h ++ hdrText h
          ++ " 00 01 02 03 04 05 06 07 08 09 0A 0B 0C 0D 0E 0F".data ++ "\n".data := by
  have hC := (consoleOk_run c sched h hh).1
  have hI := inv_run c sched
  rw [hpc] at hC
  rw [hC]
  simp only [obsConsole]
  have hf := hI.woken h hh (by rw [hpc]; rfl)
  rw [dumpText_congr _ (fun j => j % 256) 16
    (fun j hj => inv_dst_of_flag c _ hI hf j (by omega)), dumpText_pattern]

end BareMetal

namespace Linux

theorem dumpText_congr_hosted (f g : Nat → Nat) :
    ∀ i, (∀ j, j < i → f j = g j) → dumpText f i = dumpText g i := by
  intro i
  induction i with
  | zero => intro _; rfl
  | succ i ih =>
    intro h
    simp only [dumpText]
    rw [ih (fun j hj => h j (by omega)), h i (by omega)]

theorem workerConsole_dst (k : Nat) (f g : Nat → Nat) (pc : WorkerPc)
    (hp : pastWait pc = false) : workerConsole k f pc = workerConsole k g pc := by
  cases pc <;> simp_all [pastWait, workerConsole]

theorem consoleOk_stepWorker (k : Nat) (s : State) (hC : ConsoleOk k s) :
    ConsoleOk k (stepWorker k s) := by
  obtain ⟨h1, h2⟩ := hC
  rw [ConsoleOk, stepWorker_dst]
  unfold stepWorker
  cases hpc : (s.workers k).pc <;> rw [hpc] at h1 h2 <;> simp only []
  case idle => rw [hpc]; exact ⟨h1, by simp⟩
  case entry =>
    simp only [workerGoto_same, consoleOf_append, h1, workerConsole]
    simp [consoleOf]
  case wait =>
    split_ifs <;> simp only [workerGoto_same, consoleOf_append, h1, workerConsole] <;>
      simp [consoleOf]
  case inval =>
    simp only [workerGoto_same, consoleOf_append, h1, workerConsole]
    simp [consoleOf]
  case hdr =>
    simp only [workerGoto_same, consoleOf_append, h1, workerConsole]
    simp [consoleOf, hdrText, dumpText]
  case dump i =>
    have hi := h2 i rfl
    split_ifs with hlt
    · simp only [workerGoto_same, consoleOf_append, h1, workerConsole]
      refine ⟨?_, ?_⟩
      · simp [consoleOf, dumpText]
      · intro j hj; simp only [WorkerPc.dump.injEq] at hj; omega
    · have : i = 16 := by omega
      subst this
      simp only [workerGoto_same, consoleOf_append, h1, workerConsole]
      simp [consoleOf]
  case nl =>
    simp only [workerGoto_same, consoleOf_append, h1, workerConsole]
    simp [consoleOf]
  case done => rw [hpc]; exact ⟨h1, by simp⟩

theorem consoleOk_step (c : Config) (t : Tid) (k : Nat) (s : State) (hI : Inv c s)
    (hW : WorkersInv s) (hC : ConsoleOk k s) : ConsoleOk k (step c t s) := by
  unfold step
  split_ifs with hf
  · exact hC
  · cases t with
    | main =>
      simp only []
      obtain ⟨h1, h2⟩ := hC
      rw [ConsoleOk, stepMain_dst, stepMain_workers_eq]
      split_ifs with hc
      · have hidle := hW.fresh hf k (by rw [hc.1]; simp [created])
        have hg := hW.guard k
        rw [hidle] at hg
        simp only [WorkerGuard] at hg
        simp [hg, consoleOf, workerConsole]
      · exact ⟨h1, h2⟩
    | dma =>
      simp only []
      obtain ⟨h1, h2⟩ := hC
      rw [ConsoleOk, stepDma_workers]
      refine ⟨?_, h2⟩
      rw [h1]
      by_cases hw : pastWait (s.workers k).pc = true
      · have hfl := hI.woken k hw
        have hd := inv_flag_done c s hI hfl
        have : (stepDma c s).dst = s.dst := by unfold stepDma; simp [hd]
        rw [this]
      · exact workerConsole_dst k _ _ _ (by simpa using hw)
    | worker i =>
      simp only []
      by_cases hk : k = i
      · subst hk; exact consoleOk_stepWorker k s hC
      · rw [ConsoleOk, stepWorker_dst, stepWorker_other i k s hk]; exact hC

theorem consoleOk_run_hosted (c : Config) (sched : List Tid) (k : Nat) :
    ConsoleOk k (run c sched) := by
  induction sched using List.reverseRecOn with
  | nil => simp [ConsoleOk, run, runFrom, init, consoleOf, workerConsole]
  | append_singleton l t ih =>
    have e : run c (l ++ [t]) = step c t (run c l) := by simp [run, runFrom, List.foldl_append]
    rw [e]
    exact consoleOk_step c t k _ (inv_run_hosted c l) (workersInv_run c l) ih

theorem dumpText_pattern_hosted :
    dumpText (fun j => j % 256) 16
      = " 00 01 02 03 04 05 06 07 08 09 0A 0B 0C 0D 0E 0F".data := by
  rfl

theorem worker_console (c : Config) (sched : List Tid) (k : Nat)
    (hS : 16 ≤ c.S) (hpc : ((run c sched).workers k).pc = WorkerPc.done) :
    consoleOf ((run c sched).workers k).trace
      = hdrText k ++ " 00 01 02 03 04 05 06 07 08 09 0A 0B 0C 0D 0E 0F".data
          ++ "\n\n".data := by
  have hC := (consoleOk_run_hosted c sched k).1
  have hI := inv_run_hosted c sched
  rw [hpc] at hC
  rw [hC]
  simp only [workerConsole]
  have hf := hI.woken k (by rw [hpc]; rfl)
  rw [dumpText_congr_hosted _ (fun j => j % 256) 16
    (fun j hj => inv_dst_of_flag_hosted c _ hI hf j (by omega)), dumpText_pattern_hosted]

end Linux

/-! ### The digits of the dump -/

set_option maxRecDepth 100000 in
theorem dumpByte_digits :
    ∀ b, b < 256 → dumpByte b = [' ', upperHex (b / 16), upperHex (b % 16)] := by
  decide

set_option maxRecDepth 100000 in
theorem linux_dumpByte_digits :
    ∀ b, b < 256 → Linux.dumpByte b = [' ', upperHex (b / 16), upperHex (b % 16)] := by
  decide

namespace BareMetal

/-! ### Reaching the end of the protocol -/

theorem step_pc_congr (c : Config) (h : Nat) (s1 s2 : State)
    (hpc : (s1.harts h).pc = (s2.harts h).pc) (hf : s1.dma_done = s2.dma_done) :
    ((step c h s1).harts h).pc = ((step c h s2).harts h).pc := by
  unfold step
  rw [hpc, hf]
  cases hq : (s2.harts h).pc <;> simp only [] <;> (try split_ifs) <;>
    simp only [goto_harts_same, hpc, hq]

theorem ofCtl_harts_zero (k : Ctl) : (ofCtl k).harts 0 = ⟨k.pc0, []⟩ := rfl

theorem ofCtl_harts_one (k : Ctl) : (ofCtl k).harts 1 = ⟨k.pc1, []⟩ := rfl

theorem Ctl.eq_of (a b : Ctl) (h0 : a.pc0 = b.pc0) (h1 : a.pc1 = b.pc1)
    (h2 : a.flag = b.flag) : a = b := by
  cases a; cases b; simp_all

theorem ctl_step (c : Config) (h : Nat) (s : State) (hh : h ≤ 1) :
    ctl (step c h s) = ctlStep c h (ctl s) := by
  have h01 : h = 0 ∨ h = 1 := by omega
  unfold ctlStep
  rcases h01 with rfl | rfl
  · apply Ctl.eq_of
    · exact step_pc_congr c 0 s (ofCtl (ctl s)) rfl rfl
    · show ((step c 0 s).harts 1).pc = ((step c 0 (ofCtl (ctl s))).harts 1).pc
      rw [step_harts_other c 0 1 s (by decide), step_harts_other c 0 1 _ (by decide)]
      rfl
    · show (step c 0 s).dma_done = (step c 0 (ofCtl (ctl s))).dma_done
      rw [step_flag, step_flag]
      rfl
  · apply Ctl.eq_of
    · show ((step c 1 s).harts 0).pc = ((step c 1 (ofCtl (ctl s))).harts 0).pc
      rw [step_harts_other c 1 0 s (by decide), step_harts_other c 1 0 _ (by decide)]
      rfl
    · exact step_pc_congr c 1 s (ofCtl (ctl s)) rfl rfl
    · show (step c 1 s).dma_done = (step c 1 (ofCtl (ctl s))).dma_done
      rw [step_flag, step_flag]
      rfl

theorem runFrom_replicate (c : Config) (h : Nat) :
    ∀ (n : Nat) (s : State), runFrom c s (List.replicate n h) = (step c h)^[n] s := by
  intro n
  induction n with
  | zero => intro s; rfl
  | succ n ih =>
    intro s
    rw [List.replicate_succ, runFrom_cons, ih, Function.iterate_succ_apply]

theorem ctl_iterate (c : Config) (h : Nat) (hh : h ≤ 1) :
    ∀ (n : Nat) (s : State), ctl ((step c h)^[n] s) = (ctlStep c h)^[n] (ctl s) := by
  intro n
  induction n with
  | zero => intro s; rfl
  | succ n ih =>
    intro s
    rw [Function.iterate_succ_apply, Function.iterate_succ_apply, ih, ctl_step c h s hh]

theorem ctlStep_fill (c : Config) (q : Pc) (f : Nat) :
    ∀ (n i : Nat), i + n ≤ c.S →
      (ctlStep c 0)^[n] ⟨Pc.fill i, q, f⟩ = ⟨Pc.fill (i + n), q, f⟩ := by
  intro n
  induction n with
  | zero => intro i _; rfl
  | succ n ih =>
    intro i hi
    have e : ctlStep c 0 ⟨Pc.fill i, q, f⟩ = ⟨Pc.fill (i + 1), q, f⟩ := by
      have hlt : i < c.S := by omega
      simp [ctlStep, step, ofCtl, ctl, goto, hlt]
    rw [Function.iterate_succ_apply, e, ih (i + 1) (by omega)]
    congr 2; omega

theorem ctlStep_delay (c : Config) (q : Pc) (f : Nat) :
    ∀ (n i : Nat), i + n ≤ DELAY_ITERS →
      (ctlStep c 0)^[n] ⟨Pc.delay i, q, f⟩ = ⟨Pc.delay (i + n), q, f⟩ := by
  intro n
  induction n with
  | zero => intro i _; rfl
  | succ n ih =>
    intro i hi
    have e : ctlStep c 0 ⟨Pc.delay i, q, f⟩ = ⟨Pc.delay (i + 1), q, f⟩ := by
      have hlt : i < DELAY_ITERS := by omega
      simp [ctlStep, step, ofCtl, ctl, goto, hlt]
    rw [Function.iterate_succ_apply, e, ih (i + 1) (by omega)]
    congr 2; omega

theorem ctlStep_copy (c : Config) (q : Pc) (f : Nat) :
    ∀ (n i : Nat), i + n ≤ c.S →
      (ctlStep c 0)^[n] ⟨Pc.copy i, q, f⟩ = ⟨Pc.copy (i + n), q, f⟩ := by
  intro n
  induction n with
  | zero => intro i _; rfl
  | succ n ih =>
    intro i hi
    have e : ctlStep c 0 ⟨Pc.copy i, q, f⟩ = ⟨Pc.copy (i + 1), q, f⟩ := by
      have hlt : i < c.S := by omega
      simp [ctlStep, step, ofCtl, ctl, goto, hlt]
    rw [Function.iterate_succ_apply, e, ih (i + 1) (by omega)]
    congr 2; omega

end BareMetal

namespace BareMetal

theorem ctl_producerThenObserver (c : Config) (n : Nat) :
    ctl (run c (producerThenObserver n))
      = (ctlStep c 1)^[n] ((ctlStep c 0)^[producerSteps] ⟨Pc.start, Pc.start, 0⟩) := by
  unfold producerThenObserver
  rw [run_append, runFrom_replicate, ctl_iterate c 1 (by decide), run, runFrom_replicate,
    ctl_iterate c 0 (by decide)]
  rfl

theorem prog_producer_ctl :
    (ctlStep prog 0)^[producerSteps] ⟨Pc.start, Pc.start, 0⟩ = ⟨Pc.wfi, Pc.start, 1⟩ := by
  have e : producerSteps = 20 + (1024 + (1 + (1000000 + (18 + (1024 + 2))))) := rfl
  have p1 : (ctlStep prog 0)^[2] ⟨Pc.start, Pc.start, 0⟩ = ⟨Pc.fill 0, Pc.start, 0⟩ := by
    decide
  have p2 := ctlStep_fill prog Pc.start 0 1024 0 (by decide)
  have p3 : (ctlStep prog 0)^[18] ⟨Pc.fill (0 + 1024), Pc.start, 0⟩
      = ⟨Pc.delay 0, Pc.start, 0⟩ := by decide
  have p4 := ctlStep_delay prog Pc.start 0 1000000 0 (by decide)
  have p5 : (ctlStep prog 0)^[1] ⟨Pc.delay (0 + 1000000), Pc.start, 0⟩
      = ⟨Pc.copy 0, Pc.start, 0⟩ := by decide
  have p6 := ctlStep_copy prog Pc.start 0 1024 0 (by decide)
  have p7 : (ctlStep prog 0)^[20] ⟨Pc.copy (0 + 1024), Pc.start, 0⟩
      = ⟨Pc.wfi, Pc.start, 1⟩ := by decide
  rw [e, Function.iterate_add_apply, Function.iterate_add_apply, Function.iterate_add_apply,
    Function.iterate_add_apply, Function.iterate_add_apply, Function.iterate_add_apply,
    p1, p2, p3, p4, p5, p6, p7]

theorem prog_observer_ctl_dump :
    (ctlStep prog 1)^[21] ⟨Pc.wfi, Pc.start, 1⟩ = ⟨Pc.wfi, Pc.dump 0, 1⟩ := by decide

theorem prog_observer_ctl_done :
    (ctlStep prog 1)^[39] ⟨Pc.wfi, Pc.start, 1⟩ = ⟨Pc.wfi, Pc.wfi, 1⟩ := by decide

theorem ctl_pc1 (s : State) : (s.harts 1).pc = (ctl s).pc1 := rfl

/-- After `producerThenObserver 21` hart 1 is at the start of its dump loop. -/
theorem prog_reach_dump :
    ((run prog (producerThenObserver 21)).harts 1).pc = Pc.dump 0 := by
  rw [ctl_pc1, ctl_producerThenObserver prog 21, prog_producer_ctl, prog_observer_ctl_dump]

/-- After `producerThenObserver 39` hart 1 is in its final `wfi` loop. -/
theorem prog_reach_done :
    ((run prog (producerThenObserver 39)).harts 1).pc = Pc.wfi := by
  rw [ctl_pc1, ctl_producerThenObserver prog 39, prog_producer_ctl, prog_observer_ctl_done]

end BareMetal

namespace Linux

/-! ### Reaching the end of the protocol -/

theorem Ctl.eq_of_hosted (a b : Ctl) (h0 : a.main = b.main) (h1 : a.dma = b.dma)
    (h2 : a.w0 = b.w0) (h3 : a.w1 = b.w1) (h4 : a.w2 = b.w2) (h5 : a.w3 = b.w3)
    (h6 : a.flag = b.flag) : a = b := by
  cases a; cases b; simp_all

theorem stepMain_pc_congr (c : Config) (s1 s2 : State) (hm : s1.main.pc = s2.main.pc)
    (hd : s1.dma.pc = s2.dma.pc)
    (hw : ∀ i, i < NUM_HARTS → (s1.workers i).pc = (s2.workers i).pc) :
    (stepMain c s1).main.pc = (stepMain c s2).main.pc := by
  unfold stepMain
  rw [hm, hd]
  cases hq : s2.main.pc <;> simp only []
  case join i =>
    by_cases hi : i < NUM_HARTS
    · rw [if_pos hi, if_pos hi, hw i hi]
      split_ifs <;> simp [mainGoto, hm, hq]
    · rw [if_neg hi, if_neg hi]; rfl
  all_goals (try split_ifs) <;> simp [mainGoto, hm, hq]

theorem stepDma_pc_congr (c : Config) (s1 s2 : State) (hd : s1.dma.pc = s2.dma.pc) :
    (stepDma c s1).dma.pc = (stepDma c s2).dma.pc := by
  unfold stepDma
  rw [hd]
  cases hq : s2.dma.pc <;> simp only [] <;> (try split_ifs) <;> simp [dmaGoto, hd, hq]

theorem stepWorker_pc_congr (i : Nat) (s1 s2 : State)
    (hw : (s1.workers i).pc = (s2.workers i).pc) (hf : s1.dma_done = s2.dma_done) :
    ((stepWorker i s1).workers i).pc = ((stepWorker i s2).workers i).pc := by
  unfold stepWorker
  rw [hw, hf]
  cases hq : (s2.workers i).pc <;> simp only [] <;> (try split_ifs) <;>
    simp [workerGoto, hw, hq]

theorem stepMain_worker_pc (c : Config) (s : State) (k : Nat) :
    ((stepMain c s).workers k).pc
      = if s.main.pc = MainPc.spawn k ∧ k < NUM_HARTS ∧ c.workerCreateOk k = true then
          WorkerPc.entry
        else (s.workers k).pc := by
  rw [stepMain_workers_eq]
  split_ifs <;> rfl

theorem ctl_ofCtl (k : Ctl) : ctl (ofCtl k) = k := rfl

theorem ctl_stepMain (c : Config) (s : State) :
    ctl (stepMain c s) = ctl (stepMain c (ofCtl (ctl s))) := by
  apply Ctl.eq_of_hosted
  · apply stepMain_pc_congr c s (ofCtl (ctl s)) rfl rfl
    intro i hi
    have : i = 0 ∨ i = 1 ∨ i = 2 ∨ i = 3 := by unfold NUM_HARTS at hi; omega
    rcases this with rfl | rfl | rfl | rfl <;> rfl
  · show (stepMain c s).dma.pc = (stepMain c (ofCtl (ctl s))).dma.pc
    rw [stepMain_dma, stepMain_dma]; rfl
  · show ((stepMain c s).workers 0).pc = ((stepMain c (ofCtl (ctl s))).workers 0).pc
    rw [stepMain_worker_pc, stepMain_worker_pc]; rfl
  · show ((stepMain c s).workers 1).pc = ((stepMain c (ofCtl (ctl s))).workers 1).pc
    rw [stepMain_worker_pc, stepMain_worker_pc]; rfl
  · show ((stepMain c s).workers 2).pc = ((stepMain c (ofCtl (ctl s))).workers 2).pc
    rw [stepMain_worker_pc, stepMain_worker_pc]; rfl
  · show ((stepMain c s).workers 3).pc = ((stepMain c (ofCtl (ctl s))).workers 3).pc
    rw [stepMain_worker_pc, stepMain_worker_pc]; rfl
  · show (stepMain c s).dma_done = (stepMain c (ofCtl (ctl s))).dma_done
    rw [stepMain_flag, stepMain_flag]; rfl

theorem ctl_stepDma (c : Config) (s : State) :
    ctl (stepDma c s) = ctl (stepDma c (ofCtl (ctl s))) := by
  apply Ctl.eq_of_hosted
  · show (stepDma c s).main.pc = (stepDma c (ofCtl (ctl s))).main.pc
    rw [stepDma_main, stepDma_main]; rfl
  · exact stepDma_pc_congr c s (ofCtl (ctl s)) rfl
  · show ((stepDma c s).workers 0).pc = ((stepDma c (ofCtl (ctl s))).workers 0).pc
    rw [stepDma_workers, stepDma_workers]; rfl
  · show ((stepDma c s).workers 1).pc = ((stepDma c (ofCtl (ctl s))).workers 1).pc
    rw [stepDma_workers, stepDma_workers]; rfl
  · show ((stepDma c s).workers 2).pc = ((stepDma c (ofCtl (ctl s))).workers 2).pc
    rw [stepDma_workers, stepDma_workers]; rfl
  · show ((stepDma c s).workers 3).pc = ((stepDma c (ofCtl (ctl s))).workers 3).pc
    rw [stepDma_workers, stepDma_workers]; rfl
  · show (stepDma c s).dma_done = (stepDma c (ofCtl (ctl s))).dma_done
    rw [stepDma_flag, stepDma_flag]; rfl

theorem stepWorker_pc_sim (i k : Nat) (s : State) (hk : k < 4) :
    ((stepWorker i s).workers k).pc = ((stepWorker i (ofCtl (ctl s))).workers k).pc := by
  by_cases hki : k = i
  · subst hki
    apply stepWorker_pc_congr k s (ofCtl (ctl s)) _ rfl
    have : k = 0 ∨ k = 1 ∨ k = 2 ∨ k = 3 := by omega
    rcases this with rfl | rfl | rfl | rfl <;> rfl
  · rw [stepWorker_other i k s hki, stepWorker_other i k _ hki]
    have : k = 0 ∨ k = 1 ∨ k = 2 ∨ k = 3 := by omega
    rcases this with rfl | rfl | rfl | rfl <;> rfl

theorem ctl_stepWorker (i : Nat) (s : State) :
    ctl (stepWorker i s) = ctl (stepWorker i (ofCtl (ctl s))) := by
  apply Ctl.eq_of_hosted
  · show (stepWorker i s).main.pc = (stepWorker i (ofCtl (ctl s))).main.pc
    rw [stepWorker_main, stepWorker_main]; rfl
  · show (stepWorker i s).dma.pc = (stepWorker i (ofCtl (ctl s))).dma.pc
    rw [stepWorker_dma, stepWorker_dma]; rfl
  · exact stepWorker_pc_sim i 0 s (by decide)
  · exact stepWorker_pc_sim i 1 s (by decide)
  · exact stepWorker_pc_sim i 2 s (by decide)
  · exact stepWorker_pc_sim i 3 s (by decide)
  · show (stepWorker i s).dma_done = (stepWorker i (ofCtl (ctl s))).dma_done
    rw [stepWorker_flag, stepWorker_flag]; rfl

theorem ctl_step_hosted (c : Config) (t : Tid) (s : State) :
    ctl (step c t s) = ctlStep c t (ctl s) := by
  unfold ctlStep step
  have hm : (ofCtl (ctl s)).main.pc = s.main.pc := rfl
  rw [hm]
  split_ifs with hf
  · rfl
  · cases t with
    | main => exact ctl_stepMain c s
    | dma => exact ctl_stepDma c s
    | worker i => exact ctl_stepWorker i s

theorem runFrom_replicate_hosted (c : Config) (t : Tid) :
    ∀ (n : Nat) (s : State), runFrom c s (List.replicate n t) = (step c t)^[n] s := by
  intro n
  induction n with
  | zero => intro s; rfl
  | succ n ih =>
    intro s
    rw [List.replicate_succ, runFrom_cons_hosted, ih, Function.iterate_succ_apply]

theorem ctl_iterate_hosted (c : Config) (t : Tid) :
    ∀ (n : Nat) (s : State), ctl ((step c t)^[n] s) = (ctlStep c t)^[n] (ctl s) := by
  intro n
  induction n with
  | zero => intro s; rfl
  | succ n ih =>
    intro s
    rw [Function.iterate_succ_apply, Function.iterate_succ_apply, ih, ctl_step_hosted c t s]

theorem ctl_runFrom_replicate (c : Config) (t : Tid) (n : Nat) (s : State) :
    ctl (runFrom c s (List.replicate n t)) = (ctlStep c t)^[n] (ctl s) := by
  rw [runFrom_replicate_hosted, ctl_iterate_hosted]

theorem runFrom_append (c : Config) (s : State) (l1 l2 : List Tid) :
    runFrom c s (l1 ++ l2) = runFrom c (runFrom c s l1) l2 := by
  simp [runFrom, List.foldl_append]

theorem ctlStep_fill_hosted (c : Config) (k : Ctl) :
    ∀ (n i : Nat), i + n ≤ c.S → k.main = MainPc.fill i →
      (ctlStep c Tid.main)^[n] k = { k with main := MainPc.fill (i + n) } := by
  intro n
  induction n generalizing k with
  | zero => intro i _ h; cases k; simp_all
  | succ n ih =>
    intro i hi h
    have e : ctlStep c Tid.main k = { k with main := MainPc.fill (i + 1) } := by
      have hlt : i < c.S := by omega
      cases k
      simp only at h
      subst h
      simp [ctlStep, step, stepMain, ofCtl, ctl, mainGoto, hlt]
    rw [Function.iterate_succ_apply, e,
      ih { k with main := MainPc.fill (i + 1) } (i + 1) (by omega) rfl]
    simp only [Ctl.mk.injEq, MainPc.fill.injEq, and_true, true_and]
    omega

theorem ctlStep_copy_hosted (c : Config) (k : Ctl) (hk : k.main ≠ MainPc.failed) :
    ∀ (n i : Nat), i + n ≤ c.S → k.dma = DmaPc.copy i →
      (ctlStep c Tid.dma)^[n] k = { k with dma := DmaPc.copy (i + n) } := by
  intro n
  induction n generalizing k with
  | zero => intro i _ h; cases k; simp_all
  | succ n ih =>
    intro i hi h
    have e : ctlStep c Tid.dma k = { k with dma := DmaPc.copy (i + 1) } := by
      have hlt : i < c.S := by omega
      cases k
      simp only at h hk
      subst h
      simp [ctlStep, step, stepDma, ofCtl, ctl, dmaGoto, hlt, hk]
    rw [Function.iterate_succ_apply, e,
      ih { k with dma := DmaPc.copy (i + 1) } hk (i + 1) (by omega) rfl]
    simp only [Ctl.mk.injEq, DmaPc.copy.injEq, and_true, true_and]
    omega

theorem ctl_producerThenWorkers (c : Config) (n : Nat) :
    ctl (run c (producerThenWorkers n))
      = (ctlStep c (Tid.worker 3))^[n] ((ctlStep c (Tid.worker 2))^[n]
          ((ctlStep c (Tid.worker 1))^[n] ((ctlStep c (Tid.worker 0))^[n]
            ((ctlStep c Tid.dma)^[dmaSteps] ((ctlStep c Tid.main)^[mainSteps]
              (ctl (init c))))))) := by
  unfold producerThenWorkers run
  rw [runFrom_append, runFrom_append, runFrom_append, runFrom_append, runFrom_append,
    ctl_runFrom_replicate, ctl_runFrom_replicate, ctl_runFrom_replicate,
    ctl_runFrom_replicate, ctl_runFrom_replicate, ctl_runFrom_replicate]

theorem prog_main_ctl :
    (ctlStep prog Tid.main)^[mainSteps] (ctl (init prog))
      = ⟨MainPc.waitMsg, DmaPc.sleep, WorkerPc.entry, WorkerPc.entry, WorkerPc.entry,
          WorkerPc.entry, 0⟩ := by
  have e : mainSteps = 11 + (1024 + 2) := rfl
  have p1 : (ctlStep prog Tid.main)^[2] (ctl (init prog))
      = ⟨MainPc.fill 0, DmaPc.idle, WorkerPc.idle, WorkerPc.idle, WorkerPc.idle,
          WorkerPc.idle, 0⟩ := by decide
  have p2 := ctlStep_fill_hosted prog
    ⟨MainPc.fill 0, DmaPc.idle, WorkerPc.idle, WorkerPc.idle, WorkerPc.idle,
      WorkerPc.idle, 0⟩ 1024 0 (by decide) rfl
  have p3 : (ctlStep prog Tid.main)^[11]
      ⟨MainPc.fill (0 + 1024), DmaPc.idle, WorkerPc.idle, WorkerPc.idle, WorkerPc.idle,
        WorkerPc.idle, 0⟩
      = ⟨MainPc.waitMsg, DmaPc.sleep, WorkerPc.entry, WorkerPc.entry, WorkerPc.entry,
          WorkerPc.entry, 0⟩ := by decide
  rw [e, Function.iterate_add_apply, Function.iterate_add_apply, p1, p2]
  exact p3

theorem prog_dma_ctl :
    (ctlStep prog Tid.dma)^[dmaSteps]
        ⟨MainPc.waitMsg, DmaPc.sleep, WorkerPc.entry, WorkerPc.entry, WorkerPc.entry,
          WorkerPc.entry, 0⟩
      = ⟨MainPc.waitMsg, DmaPc.done, WorkerPc.entry, WorkerPc.entry, WorkerPc.entry,
          WorkerPc.entry, 1⟩ := by
  have e : dmaSteps = 3 + (1024 + 1) := rfl
  have p1 : (ctlStep prog Tid.dma)^[1]
      ⟨MainPc.waitMsg, DmaPc.sleep, WorkerPc.entry, WorkerPc.entry, WorkerPc.entry,
        WorkerPc.entry, 0⟩
      = ⟨MainPc.waitMsg, DmaPc.copy 0, WorkerPc.entry, WorkerPc.entry, WorkerPc.entry,
          WorkerPc.entry, 0⟩ := by decide
  have p2 := ctlStep_copy_hosted prog
    ⟨MainPc.waitMsg, DmaPc.copy 0, WorkerPc.entry, WorkerPc.entry, WorkerPc.entry,
      WorkerPc.entry, 0⟩ (by decide) 1024 0 (by decide) rfl
  have p3 : (ctlStep prog Tid.dma)^[3]
      ⟨MainPc.waitMsg, DmaPc.copy (0 + 1024), WorkerPc.entry, WorkerPc.entry,
        WorkerPc.entry, WorkerPc.entry, 0⟩
      = ⟨MainPc.waitMsg, DmaPc.done, WorkerPc.entry, WorkerPc.entry, WorkerPc.entry,
          WorkerPc.entry, 1⟩ := by decide
  rw [e, Function.iterate_add_apply, Function.iterate_add_apply, p1, p2]
  exact p3

theorem prog_workers_ctl_dump :
    ctl (run prog (producerThenWorkers 4))
      = ⟨MainPc.waitMsg, DmaPc.done, WorkerPc.dump 0, WorkerPc.dump 0, WorkerPc.dump 0,
          WorkerPc.dump 0, 1⟩ := by
  rw [ctl_producerThenWorkers, prog_main_ctl, prog_dma_ctl]
  decide

set_option maxRecDepth 100000 in
theorem prog_workers_ctl_done :
    ctl (run prog (producerThenWorkers 22))
      = ⟨MainPc.waitMsg, DmaPc.done, WorkerPc.done, WorkerPc.done, WorkerPc.done,
          WorkerPc.done, 1⟩ := by
  rw [ctl_producerThenWorkers, prog_main_ctl, prog_dma_ctl]
  decide

theorem ctl_w0 (s : State) : (s.workers 0).pc = (ctl s).w0 := rfl

theorem ctl_w1 (s : State) : (s.workers 1).pc = (ctl s).w1 := rfl

theorem ctl_w2 (s : State) : (s.workers 2).pc = (ctl s).w2 := rfl

theorem ctl_w3 (s : State) : (s.workers 3).pc = (ctl s).w3 := rfl

/-- After `producerThenWorkers 4` worker 0 is at the start of its dump loop. -/
theorem prog_reach_dump_hosted : ((run prog (producerThenWorkers 4)).workers 0).pc = WorkerPc.dump 0 := by
  rw [ctl_w0, prog_workers_ctl_dump]

/-- After `producerThenWorkers 22` worker 0 has returned. -/
theorem prog_reach_done_hosted : ((run prog (producerThenWorkers 22)).workers 0).pc = WorkerPc.done := by
  rw [ctl_w0, prog_workers_ctl_done]

end Linux

theorem forall_mem_append_of {P : Ev → Prop} (t evs : List Ev) (h1 : ∀ e, e ∈ t → P e)
    (h2 : ∀ e, e ∈ evs → P e) : ∀ e, e ∈ t ++ evs → P e := by
  intro e he
  rcases List.mem_append.1 he with h | h
  · exact h1 e h
  · exact h2 e h

namespace BareMetal

/-! ### Accesses to the flag -/

theorem flagAccess_out (x : String) : FlagAccessOk (Ev.out x) := trivial

theorem flagAccess_store (b : Buf) (i v : Nat) : FlagAccessOk (Ev.store b i v) := trivial

theorem flagAccess_load (b : Buf) (i v : Nat) : FlagAccessOk (Ev.load b i v) := trivial

theorem flagAccess_fence : FlagAccessOk Ev.fence := trivial

theorem flagAccess_perror (x : String) : FlagAccessOk (Ev.perror x) := trivial

theorem flagAccess_storeFlag : FlagAccessOk (Ev.storeFlag 1 MemOrder.release) := ⟨rfl, rfl⟩

theorem flagAccess_loadFlag (v : Nat) : FlagAccessOk (Ev.loadFlag v MemOrder.acquire) := rfl

theorem cleanInstr_flagAccess (z : Bool) (p : Nat) : FlagAccessOk (cleanInstr z p) := by
  cases z <;> simp [cleanInstr, FlagAccessOk]

theorem invalInstr_flagAccess (z : Bool) (p : Nat) : FlagAccessOk (invalInstr z p) := by
  cases z <;> simp [invalInstr, FlagAccessOk]

theorem step_flagAccess (c : Config) (h : Nat) (s : State)
    (hT : ∀ e, e ∈ (s.harts h).trace → FlagAccessOk e) :
    ∀ e, e ∈ ((step c h s).harts h).trace → FlagAccessOk e := by
  unfold step
  cases hpc : (s.harts h).pc <;> simp only [] <;> (try split_ifs) <;>
    (try simp only [goto_harts_same, hpc]) <;>
    first
    | exact hT
    | exact forall_mem_append_of _ _ hT
        (by simp [flagAccess_out, flagAccess_store, flagAccess_load, flagAccess_fence,
          flagAccess_storeFlag, flagAccess_loadFlag, cleanInstr_flagAccess,
          invalInstr_flagAccess])

theorem flagAccess_run (c : Config) (sched : List Nat) (h : Nat) :
    ∀ e, e ∈ ((run c sched).harts h).trace → FlagAccessOk e := by
  induction sched using List.reverseRecOn with
  | nil => intro e he; simp [run, runFrom, init] at he
  | append_singleton l g ih =>
    have e : run c (l ++ [g]) = step c g (run c l) := by simp [run, runFrom, List.foldl_append]
    rw [e]
    by_cases hg : h = g
    · subst hg; exact step_flagAccess c h _ ih
    · rw [step_harts_other c g h _ hg]; exact ih

end BareMetal

namespace Linux

/-! ### Accesses to the flag -/

theorem flagAccess_out_hosted (x : String) : FlagAccessOk (Ev.out x) := trivial

theorem flagAccess_store_hosted (b : Buf) (i v : Nat) : FlagAccessOk (Ev.store b i v) := trivial

theorem flagAccess_load_hosted (b : Buf) (i v : Nat) : FlagAccessOk (Ev.load b i v) := trivial

theorem flagAccess_fence_hosted : FlagAccessOk Ev.fence := trivial

theorem flagAccess_perror_hosted (x : String) : FlagAccessOk (Ev.perror x) := trivial

theorem flagAccess_storeFlag_hosted : FlagAccessOk (Ev.storeFlag 1 MemOrder.plain) := ⟨rfl, rfl⟩

theorem flagAccess_loadFlag_hosted (v : Nat) : FlagAccessOk (Ev.loadFlag v MemOrder.plain) := rfl

theorem stepMain_flagAccess (c : Config) (s : State)
    (hT : ∀ e, e ∈ s.main.trace → FlagAccessOk e) :
    ∀ e, e ∈ (stepMain c s).main.trace → FlagAccessOk e := by
  unfold stepMain
  cases hpc : s.main.pc <;> simp only [] <;> (try split_ifs) <;>
    (try simp only [mainGoto, hpc]) <;>
    first
    | exact hT
    | exact forall_mem_append_of _ _ hT
        (by simp [flagAccess_out_hosted, flagAccess_store_hosted, flagAccess_load_hosted, flagAccess_fence_hosted,
          flagAccess_storeFlag_hosted, flagAccess_loadFlag_hosted, flagAccess_perror_hosted])

theorem stepDma_flagAccess (c : Config) (s : State)
    (hT : ∀ e, e ∈ s.dma.trace → FlagAccessOk e) :
    ∀ e, e ∈ (stepDma c s).dma.trace → FlagAccessOk e := by
  unfold stepDma
  cases hpc : s.dma.pc <;> simp only [] <;> (try split_ifs) <;>
    (try simp only [dmaGoto, hpc]) <;>
    first
    | exact hT
    | exact forall_mem_append_of _ _ hT
        (by simp [flagAccess_out_hosted, flagAccess_store_hosted, flagAccess_load_hosted, flagAccess_fence_hosted,
          flagAccess_storeFlag_hosted, flagAccess_loadFlag_hosted, flagAccess_perror_hosted])

theorem stepWorker_flagAccess (i : Nat) (s : State)
    (hT : ∀ e, e ∈ (s.workers i).trace → FlagAccessOk e) :
    ∀ e, e ∈ ((stepWorker i s).workers i).trace → FlagAccessOk e := by
  unfold stepWorker
  cases hpc : (s.workers i).pc <;> simp only [] <;> (try split_ifs) <;>
    (try simp only [workerGoto_same, hpc]) <;>
    first
    | exact hT
    | exact forall_mem_append_of _ _ hT
        (by simp [flagAccess_out_hosted, flagAccess_store_hosted, flagAccess_load_hosted, flagAccess_fence_hosted,
          flagAccess_storeFlag_hosted, flagAccess_loadFlag_hosted, flagAccess_perror_hosted])

theorem stepMain_workers_trace (c : Config) (s : State) (k : Nat) :
    ((stepMain c s).workers k).trace = (s.workers k).trace := by
  rw [stepMain_workers_eq]
  split_ifs <;> rfl

theorem flagAccess_run_hosted (c : Config) (sched : List Tid) :
    (∀ e, e ∈ (run c sched).main.trace → FlagAccessOk e) ∧
    (∀ e, e ∈ (run c sched).dma.trace → FlagAccessOk e) ∧
    (∀ k e, e ∈ ((run c sched).workers k).trace → FlagAccessOk e) := by
  induction sched using List.reverseRecOn with
  | nil => simp [run, runFrom, init]
  | append_singleton l t ih =>
    obtain ⟨h1, h2, h3⟩ := ih
    have e : run c (l ++ [t]) = step c t (run c l) := by simp [run, runFrom, List.foldl_append]
    rw [e]
    unfold step
    split_ifs with hf
    · exact ⟨h1, h2, h3⟩
    · cases t with
      | main =>
        refine ⟨stepMain_flagAccess c _ h1, ?_, ?_⟩
        · simp only []; rw [stepMain_dma_trace]; exact h2
        · intro k; simp only []; rw [stepMain_workers_trace]; exact h3 k
      | dma =>
        refine ⟨?_, stepDma_flagAccess c _ h2, ?_⟩
        · simp only []; rw [stepDma_main]; exact h1
        · simp only []; rw [stepDma_workers]; exact h3
      | worker i =>
        refine ⟨?_, ?_, ?_⟩
        · simp only []; rw [stepWorker_main]; exact h1
        · simp only []; rw [stepWorker_dma]; exact h2
        · intro k
          by_cases hk : k = i
          · subst hk; exact stepWorker_flagAccess k _ (h3 k)
          · simp only []; rw [stepWorker_other i k _ hk]; exact h3 k

end Linux

/-! ### Further facts used by the main theorems -/

namespace BareMetal

theorem published_trace (c : Config) (sched : List Nat)
    (h : published ((run c sched).harts 0).pc = true) :
    Published c ((run c sched).harts 0).trace := by
  have hG := prodGuard_run c sched
  cases hpc : ((run c sched).harts 0).pc <;> rw [hpc] at hG h <;>
    simp only [ProdGuard, published] at hG h <;>
    first
    | exact hG
    | exact absurd h (by simp)

theorem ctl_pc0 (s : State) : (s.harts 0).pc = (ctl s).pc0 := rfl

theorem ctl_flag (s : State) : s.dma_done = (ctl s).flag := rfl

/-- After `producerThenObserver 0` hart 0 is in its final `wfi` loop. -/
theorem prog_reach_published :
    ((run prog (producerThenObserver 0)).harts 0).pc = Pc.wfi ∧
      (run prog (producerThenObserver 0)).dma_done = 1 := by
  rw [ctl_pc0, ctl_flag, ctl_producerThenObserver prog 0, prog_producer_ctl]
  exact ⟨rfl, rfl⟩

theorem step_dump_trace (c : Config) (s : State) (h : (s.harts 1).pc = Pc.dump 0) :
    ((step c 1 s).harts 1).trace
      = (s.harts 1).trace ++
          Ev.load Buf.dst 0 (s.dst 0) ::
            [Ev.load Buf.dst 0 (s.dst 0), Ev.out (String.mk (dumpByte (s.dst 0)))] := by
  simp [step, h]

theorem run_snoc (c : Config) (l : List Nat) (g : Nat) :
    run c (l ++ [g]) = step c g (run c l) := by
  simp [run, runFrom, List.foldl_append]

/-- The first iteration of the dump loop of hart 1, after `producerThenObserver 21`. -/
theorem prog_first_dump :
    ((run prog (producerThenObserver 21 ++ [1])).harts 1).trace
      = ((run prog (producerThenObserver 21)).harts 1).trace ++
          Ev.load Buf.dst 0 ((run prog (producerThenObserver 21)).dst 0) ::
            [Ev.load Buf.dst 0 ((run prog (producerThenObserver 21)).dst 0),
              Ev.out (String.mk (dumpByte ((run prog (producerThenObserver 21)).dst 0)))] := by
  rw [run_snoc prog (producerThenObserver 21) 1]
  exact step_dump_trace prog _ prog_reach_dump

end BareMetal

namespace Linux

theorem published_trace_hosted (c : Config) (sched : List Tid)
    (h : (run c sched).dma.pc = DmaPc.done) : Published c (run c sched).dma.trace := by
  have hG := dmaGuard_run c sched
  rw [h] at hG
  exact hG

theorem ctl_flag_hosted (s : State) : s.dma_done = (ctl s).flag := rfl

theorem ctl_main (s : State) : s.main.pc = (ctl s).main := rfl

/-- After `producerThenWorkers 0` the flag is set and `main` has left its fill loop. -/
theorem prog_reach_published_hosted :
    (run prog (producerThenWorkers 0)).main.pc = MainPc.waitMsg ∧
      (run prog (producerThenWorkers 0)).dma_done = 1 := by
  rw [ctl_main, ctl_flag_hosted, ctl_producerThenWorkers, prog_main_ctl, prog_dma_ctl]
  exact ⟨rfl, rfl⟩

theorem step_dump_trace_hosted (c : Config) (s : State) (hm : s.main.pc ≠ MainPc.failed)
    (h : (s.workers 0).pc = WorkerPc.dump 0) :
    ((step c (Tid.worker 0) s).workers 0).trace
      = (s.workers 0).trace ++
          Ev.load Buf.dst 0 (s.dst 0) :: [Ev.out (String.mk (dumpByte (s.dst 0)))] := by
  simp [step, stepWorker, hm, h]

theorem run_snoc_hosted (c : Config) (l : List Tid) (t : Tid) :
    run c (l ++ [t]) = step c t (run c l) := by
  simp [run, runFrom, List.foldl_append]

/-- The first iteration of the dump loop of worker 0, after `producerThenWorkers 4`. -/
theorem prog_first_dump_hosted :
    ((run prog (producerThenWorkers 4 ++ [Tid.worker 0])).workers 0).trace
      = ((run prog (producerThenWorkers 4)).workers 0).trace ++
          Ev.load Buf.dst 0 ((run prog (producerThenWorkers 4)).dst 0) ::
            [Ev.out (String.mk (dumpByte ((run prog (producerThenWorkers 4)).dst 0)))] := by
  rw [run_snoc_hosted prog (producerThenWorkers 4) (Tid.worker 0)]
  apply step_dump_trace_hosted prog _ _ prog_reach_dump_hosted
  rw [ctl_main, prog_workers_ctl_dump]
  decide

end Linux

namespace BareMetal

theorem step_src_only_fill (c : Config) (g : Nat) (s : State) (hI : Inv c s)
    (h : g = 0 → ∀ i, (s.harts 0).pc ≠ Pc.fill i) : (step c g s).src = s.src := by
  funext j
  rw [step_src]
  by_cases hg : g = 0
  · subst hg
    rw [if_neg (fun hc => h rfl j hc.1)]
  · rw [if_neg (fun hc => (observer_not_fill _ (hI.obs g hg) j).1 hc.1)]

theorem step_dst_only_copy (c : Config) (g : Nat) (s : State) (hI : Inv c s)
    (h : g = 0 → ∀ i, (s.harts 0).pc ≠ Pc.copy i) : (step c g s).dst = s.dst := by
  funext j
  rw [step_dst]
  by_cases hg : g = 0
  · subst hg
    rw [if_neg (fun hc => h rfl j hc.1)]
  · rw [if_neg (fun hc => (observer_not_fill _ (hI.obs g hg) j).2.1 hc.1)]

end BareMetal

namespace Linux

theorem step_src_only_fill_hosted (c : Config) (t : Tid) (s : State)
    (h : t = Tid.main → ∀ i, s.main.pc ≠ MainPc.fill i) : (step c t s).src = s.src := by
  unfold step
  split_ifs
  · rfl
  · cases t with
    | main =>
      funext j
      simp only []
      rw [stepMain_src, if_neg (fun hc => h rfl j hc.1)]
    | dma => exact stepDma_src c s
    | worker i => exact stepWorker_src i s

theorem step_dst_only_copy_hosted (c : Config) (t : Tid) (s : State)
    (h : t = Tid.dma → ∀ i, s.dma.pc ≠ DmaPc.copy i) : (step c t s).dst = s.dst := by
  unfold step
  split_ifs
  · rfl
  · cases t with
    | main => exact stepMain_dst c s
    | dma =>
      funext j
      simp only []
      rw [stepDma_dst, if_neg (fun hc => h rfl j hc.1)]
    | worker i => exact stepWorker_dst i s

end Linux

/-! # The claims -/

/-- C1. For every buffer size `S` and every index `i < S`: in every reachable state of the
protocol (any interleaving of the producer with any observers), whenever an observer has
left its wait loop and finished its own `cache_invalidate` of the destination range,
`dst_buf[i]` equals `i mod 256`.  Bare-metal: any hart `h ≠ 0`; hosted: any worker. -/
theorem dst_pattern_after_own_invalidate :
    (∀ (c : Config) (sched : List Nat) (h i : Nat), h ≠ 0 →
        BareMetal.pastInvalidate ((BareMetal.run c sched).harts h).pc = true → i < c.S →
        (BareMetal.run c sched).dst i = i % 256) ∧
    (∀ (c : Linux.Config) (sched : List Linux.Tid) (k i : Nat),
        Linux.pastInvalidate ((Linux.run c sched).workers k).pc = true → i < c.S →
        (Linux.run c sched).dst i = i % 256) := by
  constructor
  · intro c sched h i hh hp hi
    have hI := BareMetal.inv_run c sched
    exact BareMetal.inv_dst_of_flag c _ hI
      (hI.woken h hh (BareMetal.pastInvalidate_pastWait _ hp)) i hi
  · intro c sched k i hp hi
    have hI := Linux.inv_run_hosted c sched
    exact Linux.inv_dst_of_flag_hosted c _ hI (hI.woken k (Linux.pastInvalidate_pastWait_hosted _ hp)) i hi

/-- Witness of C1 at `BUFFER_SIZE = 1024`: hart 1 (worker 0) has finished its invalidate
and the last byte of `dst_buf` is `1023 mod 256`. -/
theorem dst_pattern_after_own_invalidate_witness :
    (BareMetal.pastInvalidate
        ((BareMetal.run BareMetal.prog (BareMetal.producerThenObserver 21)).harts 1).pc = true ∧
      (BareMetal.run BareMetal.prog (BareMetal.producerThenObserver 21)).dst 1023
        = 1023 % 256) ∧
    (Linux.pastInvalidate
        ((Linux.run Linux.prog (Linux.producerThenWorkers 4)).workers 0).pc = true ∧
      (Linux.run Linux.prog (Linux.producerThenWorkers 4)).dst 1023 = 1023 % 256) := by
  have h1 : BareMetal.pastInvalidate
      ((BareMetal.run BareMetal.prog (BareMetal.producerThenObserver 21)).harts 1).pc
        = true := by
    rw [BareMetal.prog_reach_dump]; rfl
  have h2 : Linux.pastInvalidate
      ((Linux.run Linux.prog (Linux.producerThenWorkers 4)).workers 0).pc = true := by
    rw [Linux.prog_reach_dump_hosted]; rfl
  exact ⟨⟨h1, dst_pattern_after_own_invalidate.1 BareMetal.prog _ 1 1023 (by decide) h1
      (by decide)⟩,
    ⟨h2, dst_pattern_after_own_invalidate.2 Linux.prog _ 0 1023 h2 (by decide)⟩⟩

/-- C2. With a buffer of at least 16 bytes (1024 in the program), the console text of
every observer that has finished is its banners followed by
` 00 01 02 03 04 05 06 07 08 09 0A 0B 0C 0D 0E 0F` and the final newline(s); and for every
byte value `b ≤ 255` the dump of `b` is a space followed by the two uppercase hexadecimal
digits of `b`, high nibble first (both variants). -/
theorem observer_dump_text :
    (∀ (c : Config) (sched : List Nat) (h : Nat), h ≠ 0 → 16 ≤ c.S →
        ((BareMetal.run c sched).harts h).pc = BareMetal.Pc.wfi →
        consoleOf ((BareMetal.run c sched).harts h).trace
          = BareMetal.startText h ++ BareMetal.waitText h ++ BareMetal.hdrText h
              ++ " 00 01 02 03 04 05 06 07 08 09 0A 0B 0C 0D 0E 0F".data ++ "\n".data) ∧
    (∀ (c : Linux.Config) (sched : List Linux.Tid) (k : Nat), 16 ≤ c.S →
        ((Linux.run c sched).workers k).pc = Linux.WorkerPc.done →
        consoleOf ((Linux.run c sched).workers k).trace
          = Linux.hdrText k ++ " 00 01 02 03 04 05 06 07 08 09 0A 0B 0C 0D 0E 0F".data
              ++ "\n\n".data) ∧
    (∀ b, b < 256 →
        dumpByte b = [' ', upperHex (b / 16), upperHex (b % 16)] ∧
        Linux.dumpByte b = [' ', upperHex (b / 16), upperHex (b % 16)]) :=
  ⟨fun c sched h hh hS hpc => BareMetal.observer_console c sched h hh hS hpc,
    fun c sched k hS hpc => Linux.worker_console c sched k hS hpc,
    fun b hb => ⟨dumpByte_digits b hb, linux_dumpByte_digits b hb⟩⟩

/-- Witness of C2: hart 1 of the bare-metal program and worker 0 of the hosted program,
run to their end, and the byte `0xAB`. -/
theorem observer_dump_text_witness :
    (((BareMetal.run BareMetal.prog (BareMetal.producerThenObserver 39)).harts 1).pc
        = BareMetal.Pc.wfi ∧
      consoleOf ((BareMetal.run BareMetal.prog (BareMetal.producerThenObserver 39)).harts 1).trace
        = ("[hart 1] starting\n[hart 1] wait for DMA \n[hart 1] dst_buf[0..15]:\n" ++
            " 00 01 02 03 04 05 06 07 08 09 0A 0B 0C 0D 0E 0F\n").data) ∧
    (((Linux.run Linux.prog (Linux.producerThenWorkers 22)).workers 0).pc
        = Linux.WorkerPc.done ∧
      consoleOf ((Linux.run Linux.prog (Linux.producerThenWorkers 22)).workers 0).trace
        = ("\n[hart 0] dst_buf[0..15]:" ++
            " 00 01 02 03 04 05 06 07 08 09 0A 0B 0C 0D 0E 0F\n\n").data) ∧
    (dumpByte 171 = [' ', 'A', 'B'] ∧ Linux.dumpByte 171 = [' ', 'A', 'B']) :=
  ⟨⟨BareMetal.prog_reach_done,
      (observer_dump_text.1 BareMetal.prog _ 1 (by decide) (by decide)
        BareMetal.prog_reach_done).trans (by decide)⟩,
    ⟨Linux.prog_reach_done_hosted,
      (observer_dump_text.2.1 Linux.prog _ 0 (by decide)
        Linux.prog_reach_done_hosted).trans (by decide)⟩,
    ⟨(observer_dump_text.2.2 171 (by decide)).1.trans (by decide),
      (observer_dump_text.2.2 171 (by decide)).2.trans (by decide)⟩⟩

/-- C3. In every interleaving, in every reachable state where some observer is past its
wait loop, `dma_done` is 1 and the producer's trace is: stores to all `S` bytes of
`dst_buf`, then its complete `cache_invalidate(dst_buf, ..)`, then the store of 1 to
`dma_done`; and `dst_buf` holds the copied pattern. -/
theorem no_wake_before_publish :
    (∀ (c : Config) (sched : List Nat) (h : Nat), h ≠ 0 →
        BareMetal.pastWait ((BareMetal.run c sched).harts h).pc = true →
        (BareMetal.run c sched).dma_done = 1 ∧
        BareMetal.Published c ((BareMetal.run c sched).harts 0).trace ∧
        ∀ i, i < c.S → (BareMetal.run c sched).dst i = i % 256) ∧
    (∀ (c : Linux.Config) (sched : List Linux.Tid) (k : Nat),
        Linux.pastWait ((Linux.run c sched).workers k).pc = true →
        (Linux.run c sched).dma_done = 1 ∧
        Linux.Published c (Linux.run c sched).dma.trace ∧
        ∀ i, i < c.S → (Linux.run c sched).dst i = i % 256) := by
  constructor
  · intro c sched h hh hp
    have hI := BareMetal.inv_run c sched
    have hf := hI.woken h hh hp
    exact ⟨hf, BareMetal.published_trace c sched (BareMetal.inv_flag_published c _ hI hf),
      fun i hi => BareMetal.inv_dst_of_flag c _ hI hf i hi⟩
  · intro c sched k hp
    have hI := Linux.inv_run_hosted c sched
    have hf := hI.woken k hp
    exact ⟨hf, Linux.published_trace_hosted c sched (Linux.inv_flag_done c _ hI hf),
      fun i hi => Linux.inv_dst_of_flag_hosted c _ hI hf i hi⟩

/-- Witness of C3: hart 1 (worker 0) past its wait loop. -/
theorem no_wake_before_publish_witness :
    (BareMetal.pastWait
        ((BareMetal.run BareMetal.prog (BareMetal.producerThenObserver 21)).harts 1).pc = true ∧
      (BareMetal.run BareMetal.prog (BareMetal.producerThenObserver 21)).dma_done = 1 ∧
      BareMetal.Published BareMetal.prog
        ((BareMetal.run BareMetal.prog (BareMetal.producerThenObserver 21)).harts 0).trace ∧
      ∀ i, i < BareMetal.prog.S →
        (BareMetal.run BareMetal.prog (BareMetal.producerThenObserver 21)).dst i = i % 256) ∧
    (Linux.pastWait ((Linux.run Linux.prog (Linux.producerThenWorkers 4)).workers 0).pc = true ∧
      (Linux.run Linux.prog (Linux.producerThenWorkers 4)).dma_done = 1 ∧
      Linux.Published Linux.prog (Linux.run Linux.prog (Linux.producerThenWorkers 4)).dma.trace ∧
      ∀ i, i < Linux.prog.S →
        (Linux.run Linux.prog (Linux.producerThenWorkers 4)).dst i = i % 256) := by
  have h1 : BareMetal.pastWait
      ((BareMetal.run BareMetal.prog (BareMetal.producerThenObserver 21)).harts 1).pc
        = true := by
    rw [BareMetal.prog_reach_dump]; rfl
  have h2 : Linux.pastWait
      ((Linux.run Linux.prog (Linux.producerThenWorkers 4)).workers 0).pc = true := by
    rw [Linux.prog_reach_dump_hosted]; rfl
  exact ⟨⟨h1, no_wake_before_publish.1 BareMetal.prog _ 1 (by decide) h1⟩,
    ⟨h2, no_wake_before_publish.2 Linux.prog _ 0 h2⟩⟩

/-- C4. In every reachable state, every load from `dst_buf` in the trace of an observer
is preceded, in that same trace, by a load of `dma_done` that returned non-zero followed by
the observer's own complete `cache_invalidate(dst_buf, ..)` (in the hosted variant: its
fence). -/
theorem dst_read_after_own_invalidate :
    (∀ (c : Config) (sched : List Nat) (h : Nat), h ≠ 0 →
        ∀ (pre post : List Ev) (i v : Nat),
          ((BareMetal.run c sched).harts h).trace = pre ++ Ev.load Buf.dst i v :: post →
          ∃ a f o iv b, pre = a ++ Ev.loadFlag f o :: (iv ++ b) ∧ f ≠ 0 ∧
            BareMetal.IsInvalidate c iv) ∧
    (∀ (c : Linux.Config) (sched : List Linux.Tid) (k : Nat)
        (pre post : List Ev) (i v : Nat),
          ((Linux.run c sched).workers k).trace = pre ++ Ev.load Buf.dst i v :: post →
          ∃ a f o b, pre = a ++ Ev.loadFlag f o :: Ev.fence :: b ∧ f ≠ 0) :=
  ⟨fun c sched h hh pre post i v ht =>
      BareMetal.observer_load_guarded c sched h hh pre post i v ht,
    fun c sched k pre post i v ht => Linux.worker_load_guarded c sched k pre post i v ht⟩

/-- Witness of C4: the first load of `dst_buf[0]` by hart 1 (worker 0). -/
theorem dst_read_after_own_invalidate_witness :
    (((BareMetal.run BareMetal.prog (BareMetal.producerThenObserver 21 ++ [1])).harts 1).trace
        = ((BareMetal.run BareMetal.prog (BareMetal.producerThenObserver 21)).harts 1).trace ++
            Ev.load Buf.dst 0 ((BareMetal.run BareMetal.prog
                (BareMetal.producerThenObserver 21)).dst 0) ::
              [Ev.load Buf.dst 0 ((BareMetal.run BareMetal.prog
                  (BareMetal.producerThenObserver 21)).dst 0),
                Ev.out (String.mk (dumpByte ((BareMetal.run BareMetal.prog
                  (BareMetal.producerThenObserver 21)).dst 0)))] ∧
      ∃ a f o iv b,
        ((BareMetal.run BareMetal.prog (BareMetal.producerThenObserver 21)).harts 1).trace
          = a ++ Ev.loadFlag f o :: (iv ++ b) ∧ f ≠ 0 ∧
        BareMetal.IsInvalidate BareMetal.prog iv) ∧
    (((Linux.run Linux.prog (Linux.producerThenWorkers 4 ++ [Linux.Tid.worker 0])).workers 0).trace
        = ((Linux.run Linux.prog (Linux.producerThenWorkers 4)).workers 0).trace ++
            Ev.load Buf.dst 0 ((Linux.run Linux.prog (Linux.producerThenWorkers 4)).dst 0) ::
              [Ev.out (String.mk (Linux.dumpByte
                ((Linux.run Linux.prog (Linux.producerThenWorkers 4)).dst 0)))] ∧
      ∃ a f o b,
        ((Linux.run Linux.prog (Linux.producerThenWorkers 4)).workers 0).trace
          = a ++ Ev.loadFlag f o :: Ev.fence :: b ∧ f ≠ 0) :=
  ⟨⟨BareMetal.prog_first_dump,
      dst_read_after_own_invalidate.1 BareMetal.prog _ 1 (by decide) _ _ 0 _
        BareMetal.prog_first_dump⟩,
    ⟨Linux.prog_first_dump_hosted,
      dst_read_after_own_invalidate.2 Linux.prog _ 0 _ _ 0 _ Linux.prog_first_dump_hosted⟩⟩

/-- C5. The completion flag is write-once and monotone: it starts at 0, every step of
every context in every reachable state either leaves it unchanged or changes it from 0
to 1, and along any interleaving it changes value at most once. -/
theorem flag_write_once :
    (BareMetal.init.dma_done = 0 ∧
      ∀ (c : Config) (sched : List Nat),
        (∀ g, (BareMetal.step c g (BareMetal.run c sched)).dma_done
              = (BareMetal.run c sched).dma_done ∨
            ((BareMetal.run c sched).dma_done = 0 ∧
              (BareMetal.step c g (BareMetal.run c sched)).dma_done = 1)) ∧
        BareMetal.flagChanges c BareMetal.init sched ≤ 1) ∧
    (∀ (c : Linux.Config),
      (Linux.init c).dma_done = 0 ∧
      ∀ (sched : List Linux.Tid),
        (∀ t, (Linux.step c t (Linux.run c sched)).dma_done = (Linux.run c sched).dma_done ∨
            ((Linux.run c sched).dma_done = 0 ∧
              (Linux.step c t (Linux.run c sched)).dma_done = 1)) ∧
        Linux.flagChanges c (Linux.init c) sched ≤ 1) :=
  ⟨⟨rfl, fun c sched =>
      ⟨fun g => BareMetal.step_flag_cases c g _ (BareMetal.inv_run c sched),
        (BareMetal.flagChanges_le c sched _ (BareMetal.inv_init c)).2⟩⟩,
    fun c => ⟨rfl, fun sched =>
      ⟨fun t => Linux.step_flag_cases_hosted c t _ (Linux.inv_run_hosted c sched),
        (Linux.flagChanges_le_hosted c sched _ (Linux.inv_init_hosted c)).2⟩⟩⟩

/-- C6. For every address range and every state of memory and cache, running
`cache_clean` twice in succession over the same range gives the same memory and cache
contents as running it once, and likewise for `cache_invalidate` (bare-metal loops: with
the same fuel both sides return or both do not; on ranges below the last cache line they
return; hosted variant: the fence-only functions). -/
theorem cache_maintenance_idempotent :
    (∀ (w : Nat) (z : Bool) (fuel addr size : Nat) (m : Memory),
        (cleanRange w z fuel addr size m).bind (cleanRange w z fuel addr size)
          = cleanRange w z fuel addr size m ∧
        (invalidateRange w z fuel addr size m).bind (invalidateRange w z fuel addr size)
          = invalidateRange w z fuel addr size m) ∧
    (∀ (w : Nat) (z : Bool) (addr size : Nat) (m : Memory), addr + size ≤ 2 ^ w - 64 →
        ∃ fuel, (cleanRange w z fuel addr size m).isSome = true ∧
          (invalidateRange w z fuel addr size m).isSome = true) ∧
    (∀ (addr size : Nat) (m : Memory),
        Linux.cacheOp addr size (Linux.cacheOp addr size m) = Linux.cacheOp addr size m) := by
  refine ⟨fun w z fuel addr size m =>
    ⟨cleanRange_idem w z fuel addr size m, invalidateRange_idem w z fuel addr size m⟩, ?_,
    fun _ _ _ => rfl⟩
  intro w z addr size m h
  obtain ⟨fuel0, ps, hf, _⟩ := cache_loops_lines w z addr size h
  obtain ⟨h1, h2⟩ := hf fuel0 (le_refl _)
  exact ⟨fuel0, by simp [cleanRange, h1], by simp [invalidateRange, h2]⟩

/-- Witness of C6: the range of `dst_buf` of the program image, every block dirty. -/
theorem cache_maintenance_idempotent_witness :
    0x80001400 + 1024 ≤ 2 ^ 64 - 64 ∧
    ∃ fuel,
      (cleanRange 64 true fuel 0x80001400 1024
          ⟨fun _ => 0, fun _ => some ⟨fun _ => 1, true⟩⟩).isSome = true ∧
      (invalidateRange 64 true fuel 0x80001400 1024
          ⟨fun _ => 0, fun _ => some ⟨fun _ => 1, true⟩⟩).isSome = true :=
  ⟨by norm_num, cache_maintenance_idempotent.2.1 64 true 0x80001400 1024 _ (by norm_num)⟩

/-- C7. Bare-metal variant: for every `addr` and `size` with `addr + size ≤ 2^w - 64`,
the loops of `cache_clean` and `cache_invalidate` terminate (every fuel from `fuel0` on
gives the result) and execute the block instruction exactly once, in ascending order, on
each 64-byte aligned `p` with `rounddown64 addr ≤ p < roundup64 (addr + size)` and on no
other address, followed by the final fence; when `size ≥ 1` these are exactly the aligned
blocks that overlap `[addr, addr + size)`; an aligned 1024-byte buffer has 16 blocks. -/
theorem cache_loops_visit_each_line (w : Nat) (zicbom : Bool) (addr size : Nat)
    (h : addr + size ≤ 2 ^ w - 64) :
    ∃ (fuel0 : Nat) (ps : List Nat),
      (∀ fuel, fuel0 ≤ fuel →
        cache_clean w zicbom fuel addr size
          = some (ps.map (cleanInstr zicbom) ++ [Ev.fence]) ∧
        cache_invalidate w zicbom fuel addr size
          = some (ps.map (invalInstr zicbom) ++ [Ev.fence])) ∧
      ps.Pairwise (fun a b => a < b) ∧
      (∀ p, p ∈ ps ↔ 64 ∣ p ∧ addr / 64 * 64 ≤ p ∧ p < (addr + size + 63) / 64 * 64) ∧
      (1 ≤ size → ∀ p, p ∈ ps ↔ 64 ∣ p ∧ p < addr + size ∧ addr < p + 64) ∧
      (64 ∣ addr → size = 1024 → ps.length = 16) :=
  cache_loops_lines w zicbom addr size h

/-- Witness of C7: the range of `dst_buf` of the program image. -/
theorem cache_loops_visit_each_line_witness :
    0x80001400 + 1024 ≤ 2 ^ 64 - 64 ∧
    ∃ (fuel0 : Nat) (ps : List Nat),
      (∀ fuel, fuel0 ≤ fuel →
        cache_clean 64 true fuel 0x80001400 1024
          = some (ps.map (cleanInstr true) ++ [Ev.fence]) ∧
        cache_invalidate 64 true fuel 0x80001400 1024
          = some (ps.map (invalInstr true) ++ [Ev.fence])) ∧
      ps.Pairwise (fun a b => a < b) ∧
      (∀ p, p ∈ ps ↔ 64 ∣ p ∧ 0x80001400 / 64 * 64 ≤ p ∧
        p < (0x80001400 + 1024 + 63) / 64 * 64) ∧
      (1 ≤ 1024 → ∀ p, p ∈ ps ↔ 64 ∣ p ∧ p < 0x80001400 + 1024 ∧ 0x80001400 < p + 64) ∧
      (64 ∣ 0x80001400 → 1024 = 1024 → ps.length = 16) :=
  ⟨by norm_num, cache_loops_visit_each_line 64 true 0x80001400 1024 (by norm_num)⟩

/-- C8 (hosted variant, at the input where the claim fails). With every library call
succeeding, `main` creates workers with the arguments 0, 1, 2 and 3; all four run the
observer sequence to its end, and the worker with id 0 reports the dump under
`[hart 0]`. -/
theorem linux_worker_zero_reports :
    ((Linux.run Linux.prog (Linux.producerThenWorkers 22)).workers 0).pc
        = Linux.WorkerPc.done ∧
    ((Linux.run Linux.prog (Linux.producerThenWorkers 22)).workers 1).pc
        = Linux.WorkerPc.done ∧
    ((Linux.run Linux.prog (Linux.producerThenWorkers 22)).workers 2).pc
        = Linux.WorkerPc.done ∧
    ((Linux.run Linux.prog (Linux.producerThenWorkers 22)).workers 3).pc
        = Linux.WorkerPc.done ∧
    consoleOf ((Linux.run Linux.prog (Linux.producerThenWorkers 22)).workers 0).trace
      = "\n[hart 0] dst_buf[0..15]: 00 01 02 03 04 05 06 07 08 09 0A 0B 0C 0D 0E 0F\n\n".data := by
  refine ⟨Linux.prog_reach_done_hosted, ?_, ?_, ?_, ?_⟩
  · rw [Linux.ctl_w1, Linux.prog_workers_ctl_done]
  · rw [Linux.ctl_w2, Linux.prog_workers_ctl_done]
  · rw [Linux.ctl_w3, Linux.prog_workers_ctl_done]
  · rw [Linux.worker_console Linux.prog _ 0 (by decide) Linux.prog_reach_done_hosted]
    rfl

/-- C10. Each buffer is read-only after its write phase.  In every reachable state the
only steps that change a byte of `src_buf` are the producer's fill iterations and the only
steps that change a byte of `dst_buf` are the producer's copy iterations (so no clean,
delay, invalidate, publish or observer step changes either); once the fill loop is
finished no further step of any context changes `src_buf`, and once `dma_done` is 1
(after the publish) no further step of any context changes `dst_buf`. -/
theorem buffers_frozen :
    (∀ (c : Config) (sched : List Nat),
        (∀ g, (g = 0 → ∀ i, ((BareMetal.run c sched).harts 0).pc ≠ BareMetal.Pc.fill i) →
          (BareMetal.step c g (BareMetal.run c sched)).src = (BareMetal.run c sched).src) ∧
        (∀ g, (g = 0 → ∀ i, ((BareMetal.run c sched).harts 0).pc ≠ BareMetal.Pc.copy i) →
          (BareMetal.step c g (BareMetal.run c sched)).dst = (BareMetal.run c sched).dst) ∧
        ∀ more : List Nat,
          (BareMetal.fillDone ((BareMetal.run c sched).harts 0).pc = true →
            (BareMetal.run c (sched ++ more)).src = (BareMetal.run c sched).src) ∧
          ((BareMetal.run c sched).dma_done = 1 →
            (BareMetal.run c (sched ++ more)).dst = (BareMetal.run c sched).dst)) ∧
    (∀ (c : Linux.Config) (sched : List Linux.Tid),
        (∀ t, (t = Linux.Tid.main → ∀ i, (Linux.run c sched).main.pc ≠ Linux.MainPc.fill i) →
          (Linux.step c t (Linux.run c sched)).src = (Linux.run c sched).src) ∧
        (∀ t, (t = Linux.Tid.dma → ∀ i, (Linux.run c sched).dma.pc ≠ Linux.DmaPc.copy i) →
          (Linux.step c t (Linux.run c sched)).dst = (Linux.run c sched).dst) ∧
        ∀ more : List Linux.Tid,
          (Linux.fillDone (Linux.run c sched).main.pc = true →
            (Linux.run c (sched ++ more)).src = (Linux.run c sched).src) ∧
          ((Linux.run c sched).dma_done = 1 →
            (Linux.run c (sched ++ more)).dst = (Linux.run c sched).dst)) := by
  constructor
  · intro c sched
    refine ⟨fun g h => BareMetal.step_src_only_fill c g _ (BareMetal.inv_run c sched) h,
      fun g h => BareMetal.step_dst_only_copy c g _ (BareMetal.inv_run c sched) h, ?_⟩
    intro more
    rw [BareMetal.run_append]
    exact ⟨fun hf => BareMetal.src_frozen c more _ (BareMetal.inv_run c sched) hf,
      fun hf => BareMetal.dst_frozen c more _ (BareMetal.inv_run c sched) hf⟩
  · intro c sched
    refine ⟨fun t h => Linux.step_src_only_fill_hosted c t _ h,
      fun t h => Linux.step_dst_only_copy_hosted c t _ h, ?_⟩
    intro more
    rw [Linux.run_append_hosted]
    exact ⟨fun hf => Linux.src_frozen_hosted c more _ hf,
      fun hf => Linux.dst_frozen_hosted c more _ (Linux.inv_run_hosted c sched) hf⟩

/-- Witness of C10: a step of observer hart 1 (worker 0) at reset, and further steps of
an observer and of the producer after the producer has published. -/
theorem buffers_frozen_witness :
    ((BareMetal.step BareMetal.prog 1 (BareMetal.run BareMetal.prog [])).src
        = (BareMetal.run BareMetal.prog []).src ∧
      (BareMetal.step BareMetal.prog 1 (BareMetal.run BareMetal.prog [])).dst
        = (BareMetal.run BareMetal.prog []).dst ∧
      (BareMetal.fillDone
          ((BareMetal.run BareMetal.prog (BareMetal.producerThenObserver 0)).harts 0).pc = true ∧
        (BareMetal.run BareMetal.prog (BareMetal.producerThenObserver 0 ++ [1, 0, 1, 2])).src
          = (BareMetal.run BareMetal.prog (BareMetal.producerThenObserver 0)).src) ∧
      ((BareMetal.run BareMetal.prog (BareMetal.producerThenObserver 0)).dma_done = 1 ∧
        (BareMetal.run BareMetal.prog (BareMetal.producerThenObserver 0 ++ [1, 0, 1, 2])).dst
          = (BareMetal.run BareMetal.prog (BareMetal.producerThenObserver 0)).dst)) ∧
    ((Linux.step Linux.prog (Linux.Tid.worker 0) (Linux.run Linux.prog [])).src
        = (Linux.run Linux.prog []).src ∧
      (Linux.step Linux.prog (Linux.Tid.worker 0) (Linux.run Linux.prog [])).dst
        = (Linux.run Linux.prog []).dst ∧
      (Linux.fillDone (Linux.run Linux.prog (Linux.producerThenWorkers 0)).main.pc = true ∧
        (Linux.run Linux.prog
            (Linux.producerThenWorkers 0 ++ [Linux.Tid.worker 0, Linux.Tid.main])).src
          = (Linux.run Linux.prog (Linux.producerThenWorkers 0)).src) ∧
      ((Linux.run Linux.prog (Linux.producerThenWorkers 0)).dma_done = 1 ∧
        (Linux.run Linux.prog
            (Linux.producerThenWorkers 0 ++ [Linux.Tid.worker 0, Linux.Tid.main])).dst
          = (Linux.run Linux.prog (Linux.producerThenWorkers 0)).dst)) := by
  have h1 : BareMetal.fillDone
      ((BareMetal.run BareMetal.prog (BareMetal.producerThenObserver 0)).harts 0).pc
        = true := by
    rw [BareMetal.prog_reach_published.1]; rfl
  have h2 := BareMetal.prog_reach_published.2
  have h3 : Linux.fillDone (Linux.run Linux.prog (Linux.producerThenWorkers 0)).main.pc
      = true := by
    rw [Linux.prog_reach_published_hosted.1]; rfl
  have h4 := Linux.prog_reach_published_hosted.2
  exact ⟨⟨(buffers_frozen.1 BareMetal.prog []).1 1 (fun h => absurd h (by decide)),
      (buffers_frozen.1 BareMetal.prog []).2.1 1 (fun h => absurd h (by decide)),
      ⟨h1, ((buffers_frozen.1 BareMetal.prog _).2.2 [1, 0, 1, 2]).1 h1⟩,
      ⟨h2, ((buffers_frozen.1 BareMetal.prog _).2.2 [1, 0, 1, 2]).2 h2⟩⟩,
    ⟨(buffers_frozen.2 Linux.prog []).1 (Linux.Tid.worker 0) (fun h => absurd h (by decide)),
      (buffers_frozen.2 Linux.prog []).2.1 (Linux.Tid.worker 0)
        (fun h => absurd h (by decide)),
      ⟨h3, ((buffers_frozen.2 Linux.prog _).2.2
        [Linux.Tid.worker 0, Linux.Tid.main]).1 h3⟩,
      ⟨h4, ((buffers_frozen.2 Linux.prog _).2.2
        [Linux.Tid.worker 0, Linux.Tid.main]).2 h4⟩⟩⟩

end DmaSim
